import Mathlib

/-!
Verification of the edgarpack document pipeline: whitespace normalization
(`parse/html_clean.py`), iXBRL stripping (`parse/ixbrl_strip.py`), sectionizing
(`parse/sectionize.py`), chunking (`pack/chunks.py`) and the manifest
determinism contract (`pack/manifest.py`).  Strings are modelled as `List Char`;
Python regular expressions are translated into hand-rolled deterministic
matchers that implement the same match semantics on the pattern in question.
-/

abbrev Str := List Char

/-- The set of characters Python's `str.strip()` / `str.isspace()` treats as
whitespace (ASCII controls, space, NEL, NBSP and the Unicode space range). -/
def pyIsSpace (c : Char) : Bool :=
  c = ' ' ∨ c = '\t' ∨ c = '\n' ∨ c = '\r' ∨ c = '\x0b' ∨ c = '\x0c' ∨
  c = '\x1c' ∨ c = '\x1d' ∨ c = '\x1e' ∨ c = '\x1f' ∨ c = '\x85' ∨ c = '\xa0' ∨
  c = ' ' ∨ (0x2000 ≤ c.toNat ∧ c.toNat ≤ 0x200a) ∨ c = ' ' ∨
  c = ' ' ∨ c = ' ' ∨ c = ' ' ∨ c = '　'

/-- Python `str.lstrip()`. -/
def pyLStrip (s : Str) : Str := s.dropWhile pyIsSpace

/-- Python `str.rstrip()`. -/
def pyRStrip (s : Str) : Str := (s.reverse.dropWhile pyIsSpace).reverse

/-- Python `str.strip()`. -/
def pyStrip (s : Str) : Str := pyRStrip (pyLStrip s)

example : pyStrip "  a b ".data = "a b".data := by decide
example : ("ab\ncd".data.splitOn '\n') = ["ab".data, "cd".data] := by decide

/-! ## Tokenizer model (`parse/tokenize.py`)

The repository's `count_tokens` uses tiktoken when that optional dependency is
importable and otherwise the documented heuristic `len(text) // 4`
(`estimate_tokens`).  We model the configuration in which tiktoken is absent
(`has_tiktoken() == False`), which the source supports explicitly via its
`try: import tiktoken / except: tiktoken = None` fallback; exact BPE
tokenization is not modellable. -/

/-- `estimate_tokens` / `count_tokens` without tiktoken: `len(text) // 4`. -/
def countTokens (s : Str) : Nat := s.length / 4

/-- `has_tiktoken()` in the modelled (tiktoken-absent) configuration. -/
def hasTiktoken : Bool := false

/-! ## Chunker model (`pack/chunks.py`) -/

/-- Python `content[a:b]` for `0 ≤ a ≤ b` (clamping at the ends like Python). -/
def strSlice (s : Str) (a b : Nat) : Str := (s.drop a).take (b - a)

/-- Scanner for `re.finditer(r"\n\n+", text)`, recording each match's `end()`:
a single pass carrying the current newline-run length (`run`); a greedy
non-overlapping match ends exactly where a run of length `≥ 2` ends. -/
def paraGo : Str → Nat → Nat → List Nat
  | [], pos, run => if 2 ≤ run then [pos] else []
  | c :: rest, pos, run =>
      if c = '\n' then paraGo rest (pos + 1) (run + 1)
      else if 2 ≤ run then pos :: paraGo rest (pos + 1) 0
      else paraGo rest (pos + 1) 0

/-- `find_paragraph_boundaries`. -/
def findParagraphBoundaries (s : Str) : List Nat := paraGo s 0 0

/-- Scanner states for `re.finditer(r"[.!?]\s+", text)`: `0` = normal,
`1` = previous character was sentence punctuation, `2` = inside the greedy
`\s+` run of a match (which ends where the run ends). -/
def sentGo : Str → Nat → Nat → List Nat
  | [], pos, mode => if mode = 2 then [pos] else []
  | c :: rest, pos, mode =>
      let punct : Bool := c = '.' || c = '!' || c = '?'
      if mode = 2 then
        if pyIsSpace c then sentGo rest (pos + 1) 2
        else pos :: sentGo rest (pos + 1) (if punct then 1 else 0)
      else if mode = 1 && pyIsSpace c then sentGo rest (pos + 1) 2
      else sentGo rest (pos + 1) (if punct then 1 else 0)

/-- `find_sentence_boundaries`: each recorded position is a match's `end()`. -/
def findSentenceBoundaries (s : Str) : List Nat := sentGo s 0 0

/-- Insert into a strictly ascending list, skipping duplicates. -/
def insertSortedNat (x : Nat) : List Nat → List Nat
  | [] => [x]
  | y :: ys => if x < y then x :: y :: ys else if x = y then y :: ys else y :: insertSortedNat x ys

/-- Python `sorted(set(l))`: the strictly ascending enumeration of `l`'s elements. -/
def sortedDedup (l : List Nat) : List Nat := l.foldr insertSortedNat []

structure Chunk where
  chunk_id : Str
  section_id : Str
  chunk_index : Nat
  text : Str
  char_start : Nat
  char_end : Nat
  tokens : Nat
deriving DecidableEq, Repr

theorem dropWhile_length_le (p : Char → Bool) (l : Str) :
    (l.dropWhile p).length ≤ l.length := by
  induction l with
  | nil => simp
  | cons c rest ih =>
      by_cases h : p c
      · simp only [List.dropWhile_cons, h, if_true]; exact Nat.le_succ_of_le ih
      · simp [List.dropWhile_cons, h]

/-- `re.sub(r"\s+", " ", s)`: collapse each maximal whitespace run to one
space.  `prevWs` records whether the previous character was whitespace. -/
def collapseWsAux : Str → Bool → Str
  | [], _ => []
  | c :: rest, prevWs =>
      if pyIsSpace c then
        if prevWs then collapseWsAux rest true else ' ' :: collapseWsAux rest true
      else c :: collapseWsAux rest false

/-- The whitespace normalization inside `generate_chunk_id`:
`re.sub(r"\s+", " ", text.strip().lower())`. -/
def collapseWsRuns (s : Str) : Str := collapseWsAux s false

/-- Decimal rendering of a natural number. -/
def natToStr (n : Nat) : Str := (Nat.repr n).data

/-- `generate_chunk_id` builds `f"{section_id}:{chunk_index}:{normalized}"` and
hashes it with SHA-256, keeping 16 hex characters.  The digest itself is not
modelled (no claim concerns its value); we keep the pre-hash payload, which the
digest is a deterministic function of. -/
def generateChunkId (sid : Str) (idx : Nat) (text : Str) : Str :=
  sid ++ ':' :: natToStr idx ++ ':' :: collapseWsRuns ((pyStrip text).map Char.toLower)

/-- The `for end in all_boundaries` loop body of `chunk_section` (the
tiktoken-absent branch): returns `(best_end, fallback_end)`. -/
def pickGo (content : Str) (start mn mx : Nat) :
    List Nat → Option Nat → Option Nat → Option Nat × Option Nat
  | [], best, fb => (best, fb)
  | e :: rest, best, fb =>
      if e ≤ start then pickGo content start mn mx rest best fb
      else
        let t := countTokens (strSlice content start e)
        if t ≤ mx then
          if mn ≤ t then pickGo content start mn mx rest (some e) fb
          else pickGo content start mn mx rest best (some e)
        else (best, fb)

/-- `if candidate is not None and candidate > start: take it, else the default`
(the shape of both fallback checks in `chunk_section`). -/
def endOrElse (start : Nat) (o : Option Nat) (d : Nat) : Nat :=
  match o with
  | some b => if start < b then b else d
  | none => d

/-- Selection of the next chunk end in `chunk_section`: best boundary, else
fallback boundary, else the hard split `min(n, start + max_tokens * 4)`. -/
def chooseEnd (content : Str) (bounds : List Nat) (start mn mx : Nat) : Nat :=
  let pick := pickGo content start mn mx bounds none none
  let hard := min content.length (start + mx * 4)
  endOrElse start pick.1 (endOrElse start pick.2 hard)

/-- The `while start < n` loop of `chunk_section`, with explicit fuel (the loop
advances by at least one character per iteration, so `content.length` fuel is
always sufficient; see `chunkGo_fuel_irrelevant`-style lemmas below). -/
def chunkGo (sid content : Str) (bounds : List Nat) (mn mx : Nat) :
    Nat → Nat → Nat → List Chunk
  | 0, _, _ => []
  | fuel + 1, start, idx =>
      if start < content.length then
        let e := chooseEnd content bounds start mn mx
        let text := strSlice content start e
        if text = [] then []
        else
          { chunk_id := generateChunkId sid idx text, section_id := sid, chunk_index := idx,
            text := text, char_start := start, char_end := e,
            tokens := countTokens text } :: chunkGo sid content bounds mn mx fuel e (idx + 1)
      else []

/-- `max(1, int(x))` applied to each token budget. -/
def clampTokens (x : Int) : Nat := (max 1 x).toNat

/-- `chunk_section` (tiktoken-absent configuration). -/
def chunkSection (sid content : Str) (minTokens maxTokens : Int) : List Chunk :=
  if content = [] then []
  else
    let mx := clampTokens maxTokens
    let mn0 := clampTokens minTokens
    let mn := if mx < mn0 then mx else mn0
    let total := countTokens content
    if total ≤ mx then
      [{ chunk_id := generateChunkId sid 0 content, section_id := sid, chunk_index := 0,
         text := content, char_start := 0, char_end := content.length, tokens := total }]
    else
      let bounds := sortedDedup
        (findParagraphBoundaries content ++ findSentenceBoundaries content ++ [content.length])
      chunkGo sid content bounds mn mx content.length 0 0

example :
    (chunkSection "s1".data "short text".data 1 5000).map
      (fun c => (c.char_start, c.char_end)) = [(0, 10)] := by decide
example :
    (chunkSection "s".data "aa. bb. cc. dd. ee. ff. gg".data 1 2).map
      (fun c => (c.char_start, c.char_end)) = [(0, 8), (8, 16), (16, 26)] := by
  decide

/-! ## Chunker lemmas -/

theorem paraGo_le (s : Str) : ∀ pos run b, b ∈ paraGo s pos run → b ≤ pos + s.length := by
  induction s with
  | nil =>
      intro pos run b hb
      by_cases h : 2 ≤ run <;> simp [paraGo, h] at hb
      simp [hb]
  | cons c rest ih =>
      intro pos run b hb
      simp only [paraGo] at hb
      split at hb
      · have := ih (pos + 1) (run + 1) b hb
        simp only [List.length_cons]; omega
      · split at hb
        · rcases List.mem_cons.mp hb with rfl | hb
          · simp only [List.length_cons]; omega
          · have := ih (pos + 1) 0 b hb
            simp only [List.length_cons]; omega
        · have := ih (pos + 1) 0 b hb
          simp only [List.length_cons]; omega

theorem sentGo_le (s : Str) : ∀ pos mode b, b ∈ sentGo s pos mode → b ≤ pos + s.length := by
  induction s with
  | nil =>
      intro pos mode b hb
      by_cases h : mode = 2 <;> simp [sentGo, h] at hb
      simp [hb]
  | cons c rest ih =>
      intro pos mode b hb
      simp only [sentGo] at hb
      split at hb
      · split at hb
        · have := ih (pos + 1) 2 b hb
          simp only [List.length_cons]; omega
        · rcases List.mem_cons.mp hb with rfl | hb
          · simp only [List.length_cons]; omega
          · have := ih (pos + 1) _ b hb
            simp only [List.length_cons]; omega
      · split at hb
        · have := ih (pos + 1) 2 b hb
          simp only [List.length_cons]; omega
        · have := ih (pos + 1) _ b hb
          simp only [List.length_cons]; omega

theorem mem_insertSortedNat {a x : Nat} :
    ∀ {l : List Nat}, a ∈ insertSortedNat x l → a = x ∨ a ∈ l := by
  intro l
  induction l with
  | nil => intro h; simp [insertSortedNat] at h; exact Or.inl h
  | cons y ys ih =>
      intro h
      simp only [insertSortedNat] at h
      split at h
      · rcases List.mem_cons.mp h with rfl | h
        · exact Or.inl rfl
        · exact Or.inr h
      · split at h
        · exact Or.inr h
        · rcases List.mem_cons.mp h with rfl | h
          · exact Or.inr (List.mem_cons_self _ _)
          · rcases ih h with h | h
            · exact Or.inl h
            · exact Or.inr (List.mem_cons_of_mem _ h)

theorem mem_sortedDedup {a : Nat} : ∀ {l : List Nat}, a ∈ sortedDedup l → a ∈ l := by
  intro l
  induction l with
  | nil => intro h; simp [sortedDedup] at h
  | cons x xs ih =>
      intro h
      rcases mem_insertSortedNat (l := sortedDedup xs) h with rfl | h
      · exact List.mem_cons_self _ _
      · exact List.mem_cons_of_mem _ (ih h)

theorem clampTokens_pos (x : Int) : 1 ≤ clampTokens x := by
  have h := le_max_left 1 x
  simp only [clampTokens]
  omega

theorem pickGo_fst (content : Str) (start mn mx : Nat) :
    ∀ (l : List Nat) acc1 acc2 b, (pickGo content start mn mx l acc1 acc2).1 = some b →
      acc1 = some b ∨ (b ∈ l ∧ start < b) := by
  intro l
  induction l with
  | nil => intro acc1 acc2 b h; exact Or.inl h
  | cons e rest ih =>
      intro acc1 acc2 b h
      simp only [pickGo] at h
      split at h
      · rcases ih _ _ _ h with h | ⟨h1, h2⟩
        · exact Or.inl h
        · exact Or.inr ⟨List.mem_cons_of_mem _ h1, h2⟩
      · rename_i hgt
        split at h
        · split at h
          · rcases ih _ _ _ h with h | ⟨h1, h2⟩
            · have heq := Option.some.inj h
              subst heq
              exact Or.inr ⟨List.mem_cons_self _ _, by omega⟩
            · exact Or.inr ⟨List.mem_cons_of_mem _ h1, h2⟩
          · rcases ih _ _ _ h with h | ⟨h1, h2⟩
            · exact Or.inl h
            · exact Or.inr ⟨List.mem_cons_of_mem _ h1, h2⟩
        · exact Or.inl h

theorem pickGo_snd (content : Str) (start mn mx : Nat) :
    ∀ (l : List Nat) acc1 acc2 b, (pickGo content start mn mx l acc1 acc2).2 = some b →
      acc2 = some b ∨ (b ∈ l ∧ start < b) := by
  intro l
  induction l with
  | nil => intro acc1 acc2 b h; exact Or.inl h
  | cons e rest ih =>
      intro acc1 acc2 b h
      simp only [pickGo] at h
      split at h
      · rcases ih _ _ _ h with h | ⟨h1, h2⟩
        · exact Or.inl h
        · exact Or.inr ⟨List.mem_cons_of_mem _ h1, h2⟩
      · rename_i hgt
        split at h
        · split at h
          · rcases ih _ _ _ h with h | ⟨h1, h2⟩
            · exact Or.inl h
            · exact Or.inr ⟨List.mem_cons_of_mem _ h1, h2⟩
          · rcases ih _ _ _ h with h | ⟨h1, h2⟩
            · have heq := Option.some.inj h
              subst heq
              exact Or.inr ⟨List.mem_cons_self _ _, by omega⟩
            · exact Or.inr ⟨List.mem_cons_of_mem _ h1, h2⟩
        · exact Or.inl h

theorem endOrElse_spec {n start : Nat} (o : Option Nat) (d : Nat)
    (ho : ∀ b, o = some b → start < b → b ≤ n) (hd : start < d ∧ d ≤ n) :
    start < endOrElse start o d ∧ endOrElse start o d ≤ n := by
  cases o with
  | none => exact hd
  | some b =>
      simp only [endOrElse]
      by_cases hlt : start < b
      · rw [if_pos hlt]
        exact ⟨hlt, ho b rfl hlt⟩
      · rw [if_neg hlt]
        exact hd

theorem chooseEnd_spec (content : Str) (bounds : List Nat) (start mn mx : Nat)
    (h1 : start < content.length) (hb : ∀ b ∈ bounds, b ≤ content.length) (hmx : 1 ≤ mx) :
    start < chooseEnd content bounds start mn mx ∧
      chooseEnd content bounds start mn mx ≤ content.length := by
  have hhard : start < min content.length (start + mx * 4) ∧
      min content.length (start + mx * 4) ≤ content.length := by
    refine ⟨Nat.lt_min.mpr ⟨h1, by omega⟩, Nat.min_le_left _ _⟩
  unfold chooseEnd
  refine endOrElse_spec _ _ ?_ (endOrElse_spec _ _ ?_ hhard)
  · intro b hbeq _
    rcases pickGo_fst content start mn mx bounds none none b hbeq with h | ⟨hmem, _⟩
    · simp at h
    · exact hb b hmem
  · intro b hbeq _
    rcases pickGo_snd content start mn mx bounds none none b hbeq with h | ⟨hmem, _⟩
    · simp at h
    · exact hb b hmem

theorem strSlice_length (s : Str) (a b : Nat) :
    (strSlice s a b).length = min (b - a) (s.length - a) := by
  simp [strSlice]

theorem chunkGo_nil (sid content : Str) (bounds : List Nat) (mn mx : Nat)
    (fuel start idx : Nat) (h : ¬ start < content.length) :
    chunkGo sid content bounds mn mx fuel start idx = [] := by
  cases fuel with
  | zero => rfl
  | succ fuel => simp [chunkGo, h]

theorem chunkGo_spec (sid content : Str) (bounds : List Nat) (mn mx : Nat)
    (hb : ∀ b ∈ bounds, b ≤ content.length) (hmx : 1 ≤ mx) :
    ∀ fuel start idx, start < content.length → content.length - start ≤ fuel →
      chunkGo sid content bounds mn mx fuel start idx ≠ [] ∧
      (chunkGo sid content bounds mn mx fuel start idx).head?.map Chunk.char_start =
        some start ∧
      (chunkGo sid content bounds mn mx fuel start idx).getLast?.map Chunk.char_end =
        some content.length ∧
      List.Chain' (fun a b => a.char_end = b.char_start ∧ a.char_start < b.char_start)
        (chunkGo sid content bounds mn mx fuel start idx) ∧
      ∀ c ∈ chunkGo sid content bounds mn mx fuel start idx,
        c.char_start < c.char_end ∧ c.char_end ≤ content.length ∧
        c.text = strSlice content c.char_start c.char_end ∧ c.text ≠ [] := by
  intro fuel
  induction fuel with
  | zero => intro start idx h1 h2; omega
  | succ fuel ih =>
      intro start idx h1 h2
      obtain ⟨he1, he2⟩ := chooseEnd_spec content bounds start mn mx h1 hb hmx
      set e := chooseEnd content bounds start mn mx with hedef
      have htext : strSlice content start e ≠ [] := by
        have hlen := strSlice_length content start e
        intro hnil
        rw [hnil] at hlen
        simp only [List.length_nil] at hlen
        omega
      have hstep : chunkGo sid content bounds mn mx (fuel + 1) start idx =
          { chunk_id := generateChunkId sid idx (strSlice content start e), section_id := sid,
            chunk_index := idx, text := strSlice content start e, char_start := start,
            char_end := e, tokens := countTokens (strSlice content start e) } ::
            chunkGo sid content bounds mn mx fuel e (idx + 1) := by
        simp only [chunkGo, if_pos h1, ← hedef]
        rw [if_neg htext]
      by_cases hen : e < content.length
      · obtain ⟨ihne, ihhead, ihlast, ihchain, ihall⟩ := ih e (idx + 1) hen (by omega)
        cases hrec : chunkGo sid content bounds mn mx fuel e (idx + 1) with
        | nil => exact absurd hrec ihne
        | cons r rs =>
            rw [hrec] at ihhead ihlast ihchain ihall
            have hrstart : r.char_start = e := by
              simp only [List.head?_cons, Option.map_some'] at ihhead
              exact Option.some.inj ihhead
            refine ⟨by rw [hstep]; simp, ?_, ?_, ?_, ?_⟩
            · rw [hstep]
              simp
            · rw [hstep, hrec, List.getLast?_cons_cons]
              exact ihlast
            · rw [hstep, hrec]
              exact List.chain'_cons.mpr
                ⟨⟨hrstart.symm, by show start < r.char_start; omega⟩, ihchain⟩
            · intro c hc
              rw [hstep, hrec] at hc
              rcases List.mem_cons.mp hc with rfl | hc
              · exact ⟨he1, he2, rfl, htext⟩
              · exact ihall c hc
      · have hrec : chunkGo sid content bounds mn mx fuel e (idx + 1) = [] :=
          chunkGo_nil sid content bounds mn mx fuel e (idx + 1) hen
        have heq : e = content.length := by omega
        refine ⟨by rw [hstep]; simp, ?_, ?_, ?_, ?_⟩
        · rw [hstep]
          simp
        · rw [hstep, hrec]
          simp [heq]
        · rw [hstep, hrec]
          simp
        · intro c hc
          rw [hstep, hrec] at hc
          rcases List.mem_cons.mp hc with rfl | hc
          · exact ⟨he1, he2, rfl, htext⟩
          · simp at hc

/-- **C2.** For every section id, every content string and every pair of integer
token budgets (zero, negative or `min > max` included — they are clamped, not
rejected), `chunk_section` returns a chunk list whose `[char_start, char_end)`
ranges are ordered and contiguous, that covers exactly `[0, len(content))` when
the content is non-empty, and that contains no empty or out-of-range chunk. -/
theorem chunkSection_coverage (sid content : Str) (mn mx : Int) :
    List.Chain' (fun a b => a.char_end = b.char_start ∧ a.char_start < b.char_start)
      (chunkSection sid content mn mx) ∧
    (∀ c ∈ chunkSection sid content mn mx,
      c.char_start < c.char_end ∧ c.char_end ≤ content.length ∧ c.text ≠ []) ∧
    (content ≠ [] →
      chunkSection sid content mn mx ≠ [] ∧
      (chunkSection sid content mn mx).head?.map Chunk.char_start = some 0 ∧
      (chunkSection sid content mn mx).getLast?.map Chunk.char_end =
        some content.length) := by
  by_cases hc : content = []
  · simp [chunkSection, hc]
  · by_cases htot : countTokens content ≤ clampTokens mx
    · have hsingle : chunkSection sid content mn mx =
          [{ chunk_id := generateChunkId sid 0 content, section_id := sid, chunk_index := 0,
             text := content, char_start := 0, char_end := content.length,
             tokens := countTokens content }] := by
        simp [chunkSection, hc, htot]
      have hpos : 0 < content.length := List.length_pos.mpr hc
      rw [hsingle]
      refine ⟨by simp, ?_, fun _ => ⟨by simp, by simp, by simp⟩⟩
      intro c hcm
      rcases List.mem_cons.mp hcm with rfl | hcm
      · exact ⟨hpos, le_refl _, hc⟩
      · simp at hcm
    · have hrw : chunkSection sid content mn mx =
          chunkGo sid content
            (sortedDedup (findParagraphBoundaries content ++ findSentenceBoundaries content ++
              [content.length]))
            (if clampTokens mx < clampTokens mn then clampTokens mx else clampTokens mn)
            (clampTokens mx) content.length 0 0 := by
        simp [chunkSection, hc, htot]
      have hbounds : ∀ b ∈ sortedDedup (findParagraphBoundaries content ++
          findSentenceBoundaries content ++ [content.length]), b ≤ content.length := by
        intro b hbm
        have := mem_sortedDedup hbm
        rcases List.mem_append.mp this with h | h
        · rcases List.mem_append.mp h with h | h
          · have := paraGo_le content 0 0 b h
            omega
          · have := sentGo_le content 0 0 b h
            omega
        · simp at h
          omega
      have hpos : 0 < content.length := List.length_pos.mpr hc
      obtain ⟨hne, hhead, hlast, hchain, hall⟩ :=
        chunkGo_spec sid content _ _ (clampTokens mx) hbounds (clampTokens_pos mx)
          content.length 0 0 hpos (by omega)
      rw [hrw]
      exact ⟨hchain, fun c hcm => ⟨(hall c hcm).1, (hall c hcm).2.1, (hall c hcm).2.2.2⟩,
        fun _ => ⟨hne, hhead, hlast⟩⟩

theorem chunkSection_coverage_witness :
    chunkSection "s1".data "ab".data 0 0 ≠ [] :=
  ((chunkSection_coverage "s1".data "ab".data 0 0).2.2 (by decide)).1

/-- **C6.** Whenever the non-empty content's token count is at most the clamped
`max_tokens` budget, `chunk_section` returns exactly one chunk spanning the
whole content with index 0. -/
theorem chunkSection_whole_single (sid content : Str) (mn mx : Int)
    (hne : content ≠ []) (hle : countTokens content ≤ clampTokens mx) :
    chunkSection sid content mn mx =
      [{ chunk_id := generateChunkId sid 0 content, section_id := sid, chunk_index := 0,
         text := content, char_start := 0, char_end := content.length,
         tokens := countTokens content }] := by
  simp [chunkSection, hne, hle]

theorem chunkSection_whole_single_witness :
    chunkSection "s1".data "short text".data 1 5000 =
      [{ chunk_id := generateChunkId "s1".data 0 "short text".data, section_id := "s1".data,
         chunk_index := 0, text := "short text".data, char_start := 0,
         char_end := "short text".data.length, tokens := countTokens "short text".data }] ∧
    "short text".data.length = 10 :=
  ⟨chunkSection_whole_single "s1".data "short text".data 1 5000 (by decide) (by decide),
   by decide⟩

/-! ## Section record (`parse/sectionize.py`, used by the manifest too) -/

structure Section where
  id : Str
  title : Str
  content : Str
  char_start : Nat
  char_end : Nat
  warnings : List Str
deriving DecidableEq, Repr

/-! ## Manifest model (`pack/manifest.py`)

`compute_sha256` calls stdlib `hashlib`; the digest bits are external to the
repository and are modelled as an unspecified-but-fixed deterministic function
of the hashed bytes — every theorem below depends only on that determinism,
never on digest values. -/

def sha256Hex (s : Str) : Str := "sha256:".data ++ s

/-- Python `datetime.date` (what `filing_meta.filing_date` carries). -/
structure PyDate where
  year : Nat
  month : Nat
  day : Nat
deriving DecidableEq, Repr

/-- A timezone-aware UTC `datetime.datetime`. -/
structure PyDateTime where
  year : Nat
  month : Nat
  day : Nat
  hour : Nat
  minute : Nat
  second : Nat
deriving DecidableEq, Repr

/-- `datetime(d.year, d.month, d.day, tzinfo=UTC)`: midnight UTC of a date. -/
def midnightUTC (d : PyDate) : PyDateTime := ⟨d.year, d.month, d.day, 0, 0, 0⟩

structure FilingMeta where
  cik : Str
  accession : Str
  form_type : Str
  filing_date : PyDate
  company_name : Str
deriving DecidableEq, Repr

structure SourceInfo where
  url : Str
  fetched_at : PyDateTime
deriving DecidableEq, Repr

structure FilingInfo where
  cik : Str
  accession : Str
  form_type : Str
  filing_date : Str
  company_name : Str
deriving DecidableEq, Repr

structure SectionInfo where
  id : Str
  title : Str
  path : Str
  char_start : Nat
  char_end : Nat
  tokens_approx : Nat
  sha256 : Str
deriving DecidableEq, Repr

def SCHEMA_VERSION : Nat := 1
def PARSER_VERSION : Str := "0.1.0".data

structure Manifest where
  schema_version : Nat
  parser_version : Str
  generated_at : PyDateTime
  source : SourceInfo
  filing : FilingInfo
  sections : List SectionInfo
  artifacts : List (Str × Str)
  warnings : List Str
  tokens_total : Nat
deriving DecidableEq, Repr

/-- Left-pad a decimal rendering with zeros to width `w`. -/
def padNat (w n : Nat) : Str :=
  List.replicate (w - (natToStr n).length) '0' ++ natToStr n

/-- `date.isoformat()`. -/
def dateToIso (d : PyDate) : Str :=
  padNat 4 d.year ++ '-' :: padNat 2 d.month ++ '-' :: padNat 2 d.day

/-- Pydantic `mode="json"` rendering of a UTC datetime (`...T...Z`). -/
def dtToIso (t : PyDateTime) : Str :=
  padNat 4 t.year ++ '-' :: padNat 2 t.month ++ '-' :: padNat 2 t.day ++
  'T' :: padNat 2 t.hour ++ ':' :: padNat 2 t.minute ++ ':' :: padNat 2 t.second ++ ['Z']

/-- `create_manifest`.  `now` is the wall-clock time of the build run, passed
explicitly so that independence from it is statable; the source function never
reads a clock (its timestamps come from `filing_meta.filing_date` alone). -/
def createManifest (_now : PyDateTime) (filing_meta : FilingMeta) (sections : List Section)
    (artifacts : List (Str × Str)) (warnings : List Str) (tokens_total : Nat)
    (source_url : Str) : Manifest :=
  let section_infos := sections.map fun sec =>
    { id := sec.id, title := sec.title,
      path := "sections/".data ++ sec.id ++ ".md".data,
      char_start := sec.char_start, char_end := sec.char_end,
      tokens_approx := countTokens sec.content,
      sha256 := sha256Hex sec.content : SectionInfo }
  let stable_at := midnightUTC filing_meta.filing_date
  { schema_version := SCHEMA_VERSION, parser_version := PARSER_VERSION,
    generated_at := stable_at,
    source := { url := source_url, fetched_at := stable_at },
    filing := { cik := filing_meta.cik, accession := filing_meta.accession,
                form_type := filing_meta.form_type,
                filing_date := dateToIso filing_meta.filing_date,
                company_name := filing_meta.company_name },
    sections := section_infos, artifacts := artifacts, warnings := warnings,
    tokens_total := tokens_total }

/-! ### JSON serialization (`json.dumps(..., indent=2, sort_keys=True)`) -/

inductive Json where
  | str (s : Str)
  | num (n : Nat)
  | arr (xs : List Json)
  | obj (kvs : List (Str × Json))
deriving Repr

/-- JSON string escaping (quote, backslash and the common control characters;
`ensure_ascii=False` passes other characters through). -/
def jsonEscape (s : Str) : Str :=
  s.flatMap fun c =>
    if c = '"' then ['\\', '"']
    else if c = '\\' then ['\\', '\\']
    else if c = '\n' then ['\\', 'n']
    else if c = '\t' then ['\\', 't']
    else if c = '\r' then ['\\', 'r']
    else [c]

/-- Lexicographic comparison of strings by code point (Python `sorted` on str). -/
def strLe (a b : Str) : Bool :=
  match a, b with
  | [], _ => true
  | _ :: _, [] => false
  | c :: cs, d :: ds => if c.toNat < d.toNat then true
      else if d.toNat < c.toNat then false else strLe cs ds

/-- Stable insertion into a key-sorted association list. -/
def insertByKey (x : Str × Json) : List (Str × Json) → List (Str × Json)
  | [] => [x]
  | y :: ys => if strLe x.1 y.1 then x :: y :: ys else y :: insertByKey x ys

/-- `sort_keys=True`: keys in ascending order. -/
def sortKeys (kvs : List (Str × Json)) : List (Str × Json) :=
  kvs.foldr insertByKey []

def jsonIndent (level : Nat) : Str := List.replicate (level * 2) ' '

mutual

/-- `sort_keys=True` applied recursively to every object in the value. -/
def sortJson : Json → Json
  | .str s => .str s
  | .num n => .num n
  | .arr xs => .arr (sortJsonList xs)
  | .obj kvs => .obj (sortKeys (sortJsonKVs kvs))

def sortJsonList : List Json → List Json
  | [] => []
  | x :: xs => sortJson x :: sortJsonList xs

def sortJsonKVs : List (Str × Json) → List (Str × Json)
  | [] => []
  | (k, v) :: kvs => (k, sortJson v) :: sortJsonKVs kvs

end

mutual

/-- Rendering with `indent=2` as `json.dumps` does (keys already sorted). -/
def renderJson : Nat → Json → Str
  | _, .str s => '"' :: jsonEscape s ++ ['"']
  | _, .num n => natToStr n
  | _, .arr [] => ['[', ']']
  | level, .arr (x :: xs) =>
      '[' :: '\n' :: renderArrItems (level + 1) (x :: xs) ++ '\n' :: jsonIndent level ++ [']']
  | _, .obj [] => ['\x7b', '\x7d']
  | level, .obj (kv :: kvs) =>
      '\x7b' :: '\n' :: renderObjItems (level + 1) (kv :: kvs) ++
        '\n' :: jsonIndent level ++ ['\x7d']

def renderArrItems : Nat → List Json → Str
  | _, [] => []
  | level, [x] => jsonIndent level ++ renderJson level x
  | level, x :: y :: xs =>
      jsonIndent level ++ renderJson level x ++ ',' :: '\n' :: renderArrItems level (y :: xs)

def renderObjItems : Nat → List (Str × Json) → Str
  | _, [] => []
  | level, [(k, v)] =>
      jsonIndent level ++ '"' :: jsonEscape k ++ '"' :: ':' :: ' ' :: renderJson level v
  | level, (k, v) :: kv2 :: kvs =>
      jsonIndent level ++ '"' :: jsonEscape k ++ '"' :: ':' :: ' ' :: renderJson level v ++
        ',' :: '\n' :: renderObjItems level (kv2 :: kvs)

end

def sectionInfoToJson (s : SectionInfo) : Json :=
  .obj [("id".data, .str s.id), ("title".data, .str s.title), ("path".data, .str s.path),
        ("char_start".data, .num s.char_start), ("char_end".data, .num s.char_end),
        ("tokens_approx".data, .num s.tokens_approx), ("sha256".data, .str s.sha256)]

/-- `manifest.model_dump(mode="json")`. -/
def manifestToJson (m : Manifest) : Json :=
  .obj [("schema_version".data, .num m.schema_version),
        ("parser_version".data, .str m.parser_version),
        ("generated_at".data, .str (dtToIso m.generated_at)),
        ("source".data, .obj [("url".data, .str m.source.url),
                              ("fetched_at".data, .str (dtToIso m.source.fetched_at))]),
        ("filing".data, .obj [("cik".data, .str m.filing.cik),
                              ("accession".data, .str m.filing.accession),
                              ("form_type".data, .str m.filing.form_type),
                              ("filing_date".data, .str m.filing.filing_date),
                              ("company_name".data, .str m.filing.company_name)]),
        ("sections".data, .arr (m.sections.map sectionInfoToJson)),
        ("artifacts".data, .obj (m.artifacts.map fun kv => (kv.1, .str kv.2))),
        ("warnings".data, .arr (m.warnings.map .str)),
        ("tokens_total".data, .num m.tokens_total)]

/-- `write_manifest`'s file contents:
`json.dumps(payload, indent=2, sort_keys=True, ensure_ascii=False) + "\n"`. -/
def writeManifestBytes (m : Manifest) : Str :=
  renderJson 0 (sortJson (manifestToJson m)) ++ ['\n']

/-- **C3.** `create_manifest` pins both `generated_at` and `source.fetched_at`
to midnight UTC of the filing date, never to the wall-clock build time `now`,
and `write_manifest` serializes with sorted keys, fixed indentation and a
trailing newline; hence two builds of identical filing inputs at different
wall-clock times produce byte-identical `manifest.json` contents. -/
theorem manifest_deterministic (now1 now2 : PyDateTime) (meta : FilingMeta)
    (sections : List Section) (artifacts : List (Str × Str)) (warnings : List Str)
    (tokens_total : Nat) (url : Str) :
    writeManifestBytes
        (createManifest now1 meta sections artifacts warnings tokens_total url) =
      writeManifestBytes
        (createManifest now2 meta sections artifacts warnings tokens_total url) ∧
    (createManifest now1 meta sections artifacts warnings tokens_total url).generated_at =
      midnightUTC meta.filing_date ∧
    (createManifest now1 meta sections artifacts warnings tokens_total url).source.fetched_at =
      midnightUTC meta.filing_date ∧
    (writeManifestBytes
        (createManifest now1 meta sections artifacts warnings tokens_total url)).getLast? =
      some '\n' :=
  ⟨rfl, rfl, rfl, List.getLast?_concat _⟩

/-! ## HTML-clean whitespace model (`parse/html_clean.py`)

`_normalize_whitespace` applies, in order:
`replace("\t", " ")`, `replace("\r\n", "\n")`, `replace("\r", "\n")`,
`re.sub(r" +", " ")`, `re.sub(r"\n{3,}", "\n\n")`, `re.sub(r" *\n *", "\n")`,
`.strip()`.  Each substitution is modelled as a single left-to-right pass with
the same match semantics. -/

def tabToSpace (s : Str) : Str := s.map fun c => if c = '\t' then ' ' else c

/-- `replace("\r\n", "\n")` (left-to-right, non-overlapping). -/
def crlfToLf : Str → Str
  | [] => []
  | [c] => [c]
  | c :: d :: rest =>
      if c = '\r' && d = '\n' then '\n' :: crlfToLf rest
      else c :: crlfToLf (d :: rest)

/-- `replace("\r", "\n")`. -/
def crToLf (s : Str) : Str := s.map fun c => if c = '\r' then '\n' else c

/-- `re.sub(r" +", " ", s)`: collapse maximal runs of spaces. -/
def collapseSpAux : Str → Bool → Str
  | [], _ => []
  | c :: rest, prev =>
      if c = ' ' then
        if prev then collapseSpAux rest true else ' ' :: collapseSpAux rest true
      else c :: collapseSpAux rest false

def collapseSpaces (s : Str) : Str := collapseSpAux s false

/-- `re.sub(r"\n{3,}", "\n\n", s)`: each maximal newline run of length `k`
becomes `min k 2` newlines (runs of one or two are untouched). -/
def collapseNLAux : Str → Nat → Str
  | [], run => List.replicate (min run 2) '\n'
  | c :: rest, run =>
      if c = '\n' then collapseNLAux rest (run + 1)
      else List.replicate (min run 2) '\n' ++ c :: collapseNLAux rest 0

def collapseNewlines (s : Str) : Str := collapseNLAux s 0

/-- `re.sub(r" *\n *", "\n", s)` as a state machine: `afterNL` means we are
inside the trailing `\s*` of a match (spaces are consumed); `pend` counts
pending spaces that become part of a match if a newline follows, and are
emitted verbatim otherwise. -/
def trimEdgesAux : Str → Bool → Nat → Str
  | [], _, pend => List.replicate pend ' '
  | c :: rest, afterNL, pend =>
      if c = '\n' then '\n' :: trimEdgesAux rest true 0
      else if c = ' ' then
        if afterNL then trimEdgesAux rest true 0
        else trimEdgesAux rest false (pend + 1)
      else List.replicate pend ' ' ++ c :: trimEdgesAux rest false 0

def trimLineEdges (s : Str) : Str := trimEdgesAux s false 0

/-- `_normalize_whitespace`. -/
def normalizeWhitespace (s : Str) : Str :=
  pyStrip (trimLineEdges (collapseNewlines (collapseSpaces (crToLf (crlfToLf (tabToSpace s))))))

/-- `s` contains no markup metacharacter: no tag open and no character
reference. -/
def noMarkup (s : Str) : Bool := s.all fun c => c ≠ '<' && c ≠ '&'

/-- `clean_html` feeds the input through `_CleaningHTMLParser` and then
`_normalize_whitespace`.  On input with `noMarkup` (no `<`, no `&`) the parser
tokenizes everything as character data and `handle_data` re-emits it verbatim,
so the parser stage is the identity and `clean_html` is exactly
`_normalize_whitespace`; the model is used only on such inputs (every
whitespace theorem below is a property of `_normalize_whitespace`'s output and
therefore holds for the real `clean_html` on arbitrary input as well). -/
def cleanHtml (s : Str) : Str := normalizeWhitespace s

example : cleanHtml "  a\t b \r\n c  ".data = "a b\nc".data := by decide
example : cleanHtml "a\n \n \n \nb".data = "a\n\n\n\nb".data := by decide

/-! ### Whitespace invariants for `_normalize_whitespace` -/

/-- No two consecutive spaces. -/
def noTwoSp (a b : Char) : Prop := ¬(a = ' ' ∧ b = ' ')

/-- Adjacent-pair discipline of the normalized output: no two spaces, and no
space on either side of a newline. -/
def wsPairOk (a b : Char) : Prop :=
  ¬(a = ' ' ∧ b = ' ') ∧ ¬(a = ' ' ∧ b = '\n') ∧ ¬(a = '\n' ∧ b = ' ')

theorem collapseSpAux_head_ne_space :
    ∀ s : Str, ∀ c, (collapseSpAux s true).head? = some c → c ≠ ' ' := by
  intro s
  induction s with
  | nil => intro c h; simp [collapseSpAux] at h
  | cons d rest ih =>
      intro c h
      by_cases hd : d = ' '
      · rw [show collapseSpAux (d :: rest) true = collapseSpAux rest true by
          simp [collapseSpAux, hd]] at h
        exact ih c h
      · rw [show collapseSpAux (d :: rest) true = d :: collapseSpAux rest false by
          simp [collapseSpAux, hd]] at h
        simp only [List.head?_cons] at h
        rw [← Option.some.inj h]
        exact hd

theorem chain'_collapseSpAux : ∀ (s : Str) (prev : Bool),
    List.Chain' noTwoSp (collapseSpAux s prev) := by
  intro s
  induction s with
  | nil => intro prev; simp [collapseSpAux]
  | cons c rest ih =>
      intro prev
      by_cases hc : c = ' '
      · cases prev with
        | true =>
            rw [show collapseSpAux (c :: rest) true = collapseSpAux rest true by
              simp [collapseSpAux, hc]]
            exact ih true
        | false =>
            rw [show collapseSpAux (c :: rest) false = ' ' :: collapseSpAux rest true by
              simp [collapseSpAux, hc]]
            refine List.chain'_cons'.mpr ⟨?_, ih true⟩
            intro y hy
            exact fun h => collapseSpAux_head_ne_space rest y hy h.2
      · rw [show collapseSpAux (c :: rest) prev = c :: collapseSpAux rest false by
          simp [collapseSpAux, hc]]
        refine List.chain'_cons'.mpr ⟨?_, ih false⟩
        intro y _
        exact fun h => hc h.1

theorem collapseNLAux_head_pos :
    ∀ (s : Str) (run : Nat), 1 ≤ run → ∀ c, (collapseNLAux s run).head? = some c → c = '\n' := by
  intro s
  induction s with
  | nil =>
      intro run hrun c h
      simp only [collapseNLAux] at h
      rcases le_or_lt run 1 with h1 | h1
      · have : min run 2 = run := by omega
        rw [this] at h
        have : run = 1 := by omega
        subst this
        simp at h
        exact h.symm
      · have : min run 2 = 2 := by omega
        rw [this] at h
        simp [List.replicate] at h
        exact h.symm
  | cons d rest ih =>
      intro run hrun c h
      simp only [collapseNLAux] at h
      split at h
      · exact ih (run + 1) (by omega) c h
      · rcases le_or_lt run 1 with h1 | h1
        · have hmin : min run 2 = run := by omega
          rw [hmin] at h
          have : run = 1 := by omega
          subst this
          simp at h
          exact h.symm
        · have hmin : min run 2 = 2 := by omega
          rw [hmin] at h
          simp [List.replicate] at h
          exact h.symm

theorem collapseNLAux_head_zero :
    ∀ (s : Str) c, (collapseNLAux s 0).head? = some c → c = '\n' ∨ s.head? = some c := by
  intro s c h
  cases s with
  | nil => simp [collapseNLAux] at h
  | cons d rest =>
      simp only [collapseNLAux] at h
      split at h
      · exact Or.inl (collapseNLAux_head_pos rest 1 (by omega) c h)
      · simp at h
        exact Or.inr (by simp [h])

theorem chain'_replicate_nl_append {l : Str} (hl : List.Chain' noTwoSp l) :
    ∀ k, List.Chain' noTwoSp (List.replicate k '\n' ++ l) := by
  intro k
  induction k with
  | zero => simpa using hl
  | succ k ih =>
      rw [List.replicate_succ, List.cons_append]
      refine List.chain'_cons'.mpr ⟨?_, ih⟩
      intro y _
      exact fun h => by simp at h

theorem chain'_collapseNLAux : ∀ (s : Str) (run : Nat), List.Chain' noTwoSp s →
    List.Chain' noTwoSp (collapseNLAux s run) := by
  intro s
  induction s with
  | nil =>
      intro run _
      simp only [collapseNLAux]
      simpa using chain'_replicate_nl_append (l := []) (by simp) (min run 2)
  | cons c rest ih =>
      intro run hc
      simp only [collapseNLAux]
      split
      · exact ih (run + 1) hc.tail
      · refine chain'_replicate_nl_append ?_ (min run 2)
        refine List.chain'_cons'.mpr ⟨?_, ih 0 hc.tail⟩
        intro y hy
        rcases collapseNLAux_head_zero rest y hy with rfl | hh
        · exact fun h => by simp at h
        · exact fun h => (List.chain'_cons'.mp hc).1 y hh h

theorem trimEdgesAux_head_afterNL :
    ∀ s : Str, ∀ c, (trimEdgesAux s true 0).head? = some c → c ≠ ' ' := by
  intro s
  induction s with
  | nil => intro c h; simp [trimEdgesAux] at h
  | cons d rest ih =>
      intro c h
      by_cases hnl : d = '\n'
      · rw [show trimEdgesAux (d :: rest) true 0 = '\n' :: trimEdgesAux rest true 0 by
          simp [trimEdgesAux, hnl]] at h
        simp only [List.head?_cons] at h
        rw [← Option.some.inj h]
        decide
      · by_cases hsp : d = ' '
        · rw [show trimEdgesAux (d :: rest) true 0 = trimEdgesAux rest true 0 by
            simp [trimEdgesAux, hnl, hsp]] at h
          exact ih c h
        · rw [show trimEdgesAux (d :: rest) true 0 = d :: trimEdgesAux rest false 0 by
            simp [trimEdgesAux, hnl, hsp]] at h
          simp only [List.head?_cons] at h
          rw [← Option.some.inj h]
          exact hsp

theorem chain'_trimEdgesAux : ∀ (s : Str) (afterNL : Bool) (pend : Nat),
    List.Chain' noTwoSp s → pend ≤ 1 →
    (pend = 1 → ∀ d, s.head? = some d → d ≠ ' ') →
    List.Chain' wsPairOk (trimEdgesAux s afterNL pend) := by
  intro s
  induction s with
  | nil =>
      intro afterNL pend _ hp _
      interval_cases pend <;> simp [trimEdgesAux]
  | cons c rest ih =>
      intro afterNL pend hc hp hcond
      by_cases hnl : c = '\n'
      · rw [show trimEdgesAux (c :: rest) afterNL pend = '\n' :: trimEdgesAux rest true 0 by
          simp [trimEdgesAux, hnl]]
        refine List.chain'_cons'.mpr ⟨?_, ih true 0 hc.tail (by omega) (by omega)⟩
        intro y hy
        have hyne := trimEdgesAux_head_afterNL rest y hy
        exact ⟨fun h => by simp at h, fun h => by simp at h, fun h => hyne h.2⟩
      · by_cases hsp : c = ' '
        · cases afterNL with
          | true =>
              rw [show trimEdgesAux (c :: rest) true pend = trimEdgesAux rest true 0 by
                simp [trimEdgesAux, hnl, hsp]]
              exact ih true 0 hc.tail (by omega) (by omega)
          | false =>
              have hpend : pend = 0 := by
                by_contra hne
                have h1 : pend = 1 := by omega
                exact hcond h1 c (by simp) hsp
              subst hpend
              rw [show trimEdgesAux (c :: rest) false 0 = trimEdgesAux rest false 1 by
                simp [trimEdgesAux, hnl, hsp]]
              refine ih false 1 hc.tail (by omega) ?_
              intro _ d hd hdsp
              exact (List.chain'_cons'.mp hc).1 d hd ⟨hsp, hdsp⟩
        · have hstep : trimEdgesAux (c :: rest) afterNL pend =
              List.replicate pend ' ' ++ c :: trimEdgesAux rest false 0 := by
            simp [trimEdgesAux, hnl, hsp]
          rw [hstep]
          have hinner : List.Chain' wsPairOk (c :: trimEdgesAux rest false 0) := by
            refine List.chain'_cons'.mpr ⟨?_, ih false 0 hc.tail (by omega) (by omega)⟩
            intro y _
            exact ⟨fun h => hsp h.1, fun h => hsp h.1, fun h => hnl h.1⟩
          interval_cases pend
          · simpa using hinner
          · simp only [List.replicate_one, List.cons_append, List.nil_append]
            refine List.chain'_cons'.mpr ⟨?_, hinner⟩
            intro y hy
            simp only [List.head?_cons] at hy
            have hyc := Option.some.inj hy
            exact ⟨fun h => hsp (hyc ▸ h.2), fun h => hnl (hyc ▸ h.2), fun h => by simp at h⟩

theorem chain'_dropWhile {R : Char → Char → Prop} (p : Char → Bool) :
    ∀ {l : Str}, List.Chain' R l → List.Chain' R (l.dropWhile p) := by
  intro l
  induction l with
  | nil => intro _; simp
  | cons c rest ih =>
      intro h
      by_cases hp : p c
      · rw [List.dropWhile_cons, if_pos hp]
        exact ih h.tail
      · rwa [List.dropWhile_cons, if_neg hp]

theorem head_dropWhile (p : Char → Bool) :
    ∀ {l : Str} {c}, (l.dropWhile p).head? = some c → p c = false := by
  intro l
  induction l with
  | nil => intro c h; simp at h
  | cons d rest ih =>
      intro c h
      by_cases hp : p d
      · rw [List.dropWhile_cons, if_pos hp] at h
        exact ih h
      · rw [List.dropWhile_cons, if_neg hp] at h
        simp only [List.head?_cons] at h
        rw [← Option.some.inj h]
        simpa using hp

theorem pyRStrip_prefix (l : Str) : ∃ t, pyRStrip l ++ t = l := by
  obtain ⟨t, ht⟩ := (List.dropWhile_suffix pyIsSpace (l := l.reverse))
  refine ⟨t.reverse, ?_⟩
  have := congrArg List.reverse ht
  simpa [pyRStrip] using this

theorem pyRStrip_head {l : Str} {c : Char} (h : (pyRStrip l).head? = some c) :
    l.head? = some c := by
  obtain ⟨t, ht⟩ := pyRStrip_prefix l
  cases hm : pyRStrip l with
  | nil => rw [hm] at h; simp at h
  | cons a as =>
      rw [hm] at h ht
      simp only [List.head?_cons] at h
      rw [← ht]
      simpa using h

theorem pyRStrip_getLast {l : Str} {c : Char} (h : (pyRStrip l).getLast? = some c) :
    pyIsSpace c = false := by
  have hrev : (pyRStrip l).reverse.head? = some c := by
    rwa [List.head?_reverse]
  rw [show (pyRStrip l).reverse = l.reverse.dropWhile pyIsSpace by
    simp [pyRStrip]] at hrev
  exact head_dropWhile pyIsSpace hrev

theorem pyStrip_head {s : Str} {c : Char} (h : (pyStrip s).head? = some c) :
    pyIsSpace c = false :=
  head_dropWhile pyIsSpace (pyRStrip_head h)

theorem pyStrip_getLast {s : Str} {c : Char} (h : (pyStrip s).getLast? = some c) :
    pyIsSpace c = false :=
  pyRStrip_getLast h

theorem chain'_pyRStrip {R : Char → Char → Prop} {l : Str} (h : List.Chain' R l) :
    List.Chain' R (pyRStrip l) := by
  have h1 : List.Chain' (flip R) l.reverse := by
    rw [List.chain'_reverse]
    simpa [Function.flip_def] using h
  have h2 : List.Chain' (flip R) (l.reverse.dropWhile pyIsSpace) := chain'_dropWhile _ h1
  have h3 : List.Chain' R (l.reverse.dropWhile pyIsSpace).reverse := by
    rw [List.chain'_reverse]
    simpa [Function.flip_def] using h2
  simpa [pyRStrip] using h3

theorem chain'_pyStrip {R : Char → Char → Prop} {s : Str} (h : List.Chain' R s) :
    List.Chain' R (pyStrip s) :=
  chain'_pyRStrip (chain'_dropWhile _ h)

theorem pyStrip_subset {s : Str} : ∀ c ∈ pyStrip s, c ∈ s := by
  intro c hc
  have h0 : List.Sublist ((pyLStrip s).reverse.dropWhile pyIsSpace) (pyLStrip s).reverse :=
    List.dropWhile_sublist _
  have h1 : List.Sublist (pyRStrip (pyLStrip s)) (pyLStrip s) := by
    have := h0.reverse
    simpa [pyRStrip] using this
  have h2 : List.Sublist (pyLStrip s) s := List.dropWhile_sublist _
  exact h2.subset (h1.subset hc)

theorem tab_not_mem_tabToSpace (s : Str) : '\t' ∉ tabToSpace s := by
  intro h
  obtain ⟨d, _, hd⟩ := List.mem_map.mp h
  by_cases hdt : d = '\t'
  · rw [if_pos hdt] at hd
    exact absurd hd (by decide)
  · rw [if_neg hdt] at hd
    exact hdt hd

theorem cr_not_mem_crToLf (s : Str) : '\r' ∉ crToLf s := by
  intro h
  obtain ⟨d, _, hd⟩ := List.mem_map.mp h
  by_cases hdt : d = '\r'
  · rw [if_pos hdt] at hd
    exact absurd hd (by decide)
  · rw [if_neg hdt] at hd
    exact hdt hd

theorem mem_crlfToLf {c : Char} : ∀ {s : Str}, c ∈ crlfToLf s → c ∈ s := by
  intro s
  induction s using crlfToLf.induct with
  | case1 => intro h; simp [crlfToLf] at h
  | case2 d => intro h; simpa [crlfToLf] using h
  | case3 a b rest hab ih =>
      intro h
      rw [show crlfToLf (a :: b :: rest) = '\n' :: crlfToLf rest by
        simp [crlfToLf, hab]] at h
      have hb : b = '\n' := by
        have h2 := (Bool.and_eq_true _ _).mp hab
        exact of_decide_eq_true h2.2
      rcases List.mem_cons.mp h with rfl | h
      · simp [hb]
      · exact List.mem_cons_of_mem _ (List.mem_cons_of_mem _ (ih h))
  | case4 a b rest hab ih =>
      intro h
      rw [show crlfToLf (a :: b :: rest) = a :: crlfToLf (b :: rest) by
        simp [crlfToLf, hab]] at h
      rcases List.mem_cons.mp h with rfl | h
      · simp
      · exact List.mem_cons_of_mem _ (ih h)

theorem mem_collapseSpAux {c : Char} :
    ∀ {s : Str} {prev : Bool}, c ∈ collapseSpAux s prev → c ∈ s ∨ c = ' ' := by
  intro s
  induction s with
  | nil => intro prev h; simp [collapseSpAux] at h
  | cons d rest ih =>
      intro prev h
      simp only [collapseSpAux] at h
      split at h
      · split at h
        · rcases ih h with h | h
          · exact Or.inl (List.mem_cons_of_mem _ h)
          · exact Or.inr h
        · rcases List.mem_cons.mp h with rfl | h
          · exact Or.inr rfl
          · rcases ih h with h | h
            · exact Or.inl (List.mem_cons_of_mem _ h)
            · exact Or.inr h
      · rcases List.mem_cons.mp h with rfl | h
        · exact Or.inl (List.mem_cons_self _ _)
        · rcases ih h with h | h
          · exact Or.inl (List.mem_cons_of_mem _ h)
          · exact Or.inr h

theorem mem_collapseNLAux {c : Char} :
    ∀ {s : Str} {run : Nat}, c ∈ collapseNLAux s run → c ∈ s ∨ c = '\n' := by
  intro s
  induction s with
  | nil =>
      intro run h
      simp only [collapseNLAux] at h
      exact Or.inr (List.eq_of_mem_replicate h)
  | cons d rest ih =>
      intro run h
      simp only [collapseNLAux] at h
      split at h
      · rcases ih h with h | h
        · exact Or.inl (List.mem_cons_of_mem _ h)
        · exact Or.inr h
      · rcases List.mem_append.mp h with h | h
        · exact Or.inr (List.eq_of_mem_replicate h)
        · rcases List.mem_cons.mp h with rfl | h
          · exact Or.inl (List.mem_cons_self _ _)
          · rcases ih h with h | h
            · exact Or.inl (List.mem_cons_of_mem _ h)
            · exact Or.inr h

theorem mem_trimEdgesAux {c : Char} :
    ∀ {s : Str} {afterNL : Bool} {pend : Nat},
      c ∈ trimEdgesAux s afterNL pend → c ∈ s ∨ c = ' ' ∨ c = '\n' := by
  intro s
  induction s with
  | nil =>
      intro afterNL pend h
      simp only [trimEdgesAux] at h
      exact Or.inr (Or.inl (List.eq_of_mem_replicate h))
  | cons d rest ih =>
      intro afterNL pend h
      simp only [trimEdgesAux] at h
      split at h
      · rcases List.mem_cons.mp h with rfl | h
        · exact Or.inr (Or.inr rfl)
        · rcases ih h with h | h
          · exact Or.inl (List.mem_cons_of_mem _ h)
          · exact Or.inr h
      · split at h
        · split at h <;>
          · rcases ih h with h | h
            · exact Or.inl (List.mem_cons_of_mem _ h)
            · exact Or.inr h
        · rcases List.mem_append.mp h with h | h
          · exact Or.inr (Or.inl (List.eq_of_mem_replicate h))
          · rcases List.mem_cons.mp h with rfl | h
            · exact Or.inl (List.mem_cons_self _ _)
            · rcases ih h with h | h
              · exact Or.inl (List.mem_cons_of_mem _ h)
              · exact Or.inr h

/-- **C7 (amended).** For every input, the output of `clean_html`'s whitespace
normalization contains no tab, no carriage return, no two consecutive spaces,
no space adjacent to a newline on either side, and no leading or trailing
whitespace.  (The claim's remaining conjunct — no run of three or more
newlines — fails; see the counterexample.) -/
theorem cleanHtml_whitespace (s : Str) :
    '\t' ∉ cleanHtml s ∧ '\r' ∉ cleanHtml s ∧
    List.Chain' wsPairOk (cleanHtml s) ∧
    (∀ c, (cleanHtml s).head? = some c → pyIsSpace c = false) ∧
    (∀ c, (cleanHtml s).getLast? = some c → pyIsSpace c = false) := by
  refine ⟨?_, ?_, ?_, ?_, ?_⟩
  · intro h
    have h1 := pyStrip_subset _ h
    rcases mem_trimEdgesAux h1 with h2 | h2 | h2
    · rcases mem_collapseNLAux h2 with h3 | h3
      · rcases mem_collapseSpAux h3 with h4 | h4
        · rcases List.mem_map.mp h4 with ⟨d, hd, hdeq⟩
          by_cases hdr : d = '\r'
          · rw [if_pos hdr] at hdeq; exact absurd hdeq (by decide)
          · rw [if_neg hdr] at hdeq
            subst hdeq
            exact tab_not_mem_tabToSpace s (mem_crlfToLf hd)
        · exact absurd h4 (by decide)
      · exact absurd h3 (by decide)
    · exact absurd h2 (by decide)
    · exact absurd h2 (by decide)
  · intro h
    have h1 := pyStrip_subset _ h
    rcases mem_trimEdgesAux h1 with h2 | h2 | h2
    · rcases mem_collapseNLAux h2 with h3 | h3
      · rcases mem_collapseSpAux h3 with h4 | h4
        · exact cr_not_mem_crToLf _ h4
        · exact absurd h4 (by decide)
      · exact absurd h3 (by decide)
    · exact absurd h2 (by decide)
    · exact absurd h2 (by decide)
  · exact chain'_pyStrip (chain'_trimEdgesAux _ false 0
      (chain'_collapseNLAux _ 0 (chain'_collapseSpAux _ false)) (by omega) (by omega))
  · intro c hc
    exact pyStrip_head hc
  · intro c hc
    exact pyStrip_getLast hc

/-- **C7 counterexample.** On the markup-free input `"a\n \n \n \nb"` (blank
lines bearing a space), `clean_html` returns `"a\n\n\n\nb"`, which contains a
run of four consecutive newlines — the line-edge trim (`" *\n *" -> "\n"`)
runs after the 3+-newline collapse and reunites the newlines. -/
theorem cleanHtml_newline_run_counterexample :
    noMarkup "a\n \n \n \nb".data = true ∧
    cleanHtml "a\n \n \n \nb".data = "a\n\n\n\nb".data ∧
    ∃ pre post, pre ++ ['\n', '\n', '\n'] ++ post = cleanHtml "a\n \n \n \nb".data :=
  ⟨by decide, by decide, ⟨"a".data, "\nb".data, by decide⟩⟩

/-! ## iXBRL stripper model (`parse/ixbrl_strip.py`) -/

/-- Case-insensitive (ASCII, as in the all-ASCII patterns) prefix test. -/
def ciPrefix : Str → Str → Bool
  | [], _ => true
  | _ :: _, [] => false
  | a :: ps, b :: ss => a.toLower = b.toLower && ciPrefix ps ss

/-- Case-insensitive substring containment. -/
def ciContains (needle : Str) : Str → Bool
  | [] => needle.isEmpty
  | c :: rest => ciPrefix needle (c :: rest) || ciContains needle rest

/-- Index of the first `'>'`. -/
def findGt : Str → Option Nat
  | [] => none
  | c :: r => if c = '>' then some 0 else (findGt r).map (· + 1)

/-- `IXBRL_PREFIXES`. -/
def IXBRL_PREFIXES : List Str :=
  ["ix:".data, "xbrli:".data, "xbrldi:".data, "xbrldt:".data, "link:".data, "xlink:".data,
   "iso4217:".data, "dei:".data, "us-gaap:".data, "srt:".data, "country:".data]

/-- Anchored match length for the tag pattern `</?(?:prefix|...)[^>]*>`
(IGNORECASE, DOTALL): after `</?` and a known prefix, the greedy `[^>]*>`
always ends right after the first `'>'`. -/
def tagMatchLen (prefixes : List Str) (s : Str) : Option Nat :=
  match s with
  | '<' :: rest =>
      let slash : Nat := match rest with | '/' :: _ => 1 | _ => 0
      let core : Str := match rest with | '/' :: r => r | _ => rest
      if prefixes.any fun p => ciPrefix p core then
        match findGt core with
        | some i => some (1 + slash + i + 1)
        | none => none
      else none
  | _ => none

/-- `pattern.sub("", html)` for the tag pattern: delete each leftmost
non-overlapping match.  `skip` counts characters still inside a deleted
match. -/
def tagSubGo (prefixes : List Str) : Str → Nat → Str
  | [], _ => []
  | _ :: rest, skip + 1 => tagSubGo prefixes rest skip
  | c :: rest, 0 =>
      match tagMatchLen prefixes (c :: rest) with
      | some k => tagSubGo prefixes rest (k - 1)
      | none => c :: tagSubGo prefixes rest 0

def tagSub (prefixes : List Str) (s : Str) : Str := tagSubGo prefixes s 0

/-- `[a-zA-Z0-9_-]` (the xmlns prefix-name class). -/
def isNameChar (c : Char) : Bool := c.isAlpha || c.isDigit || c = '_' || c = '-'

/-- Match the quoted value part `"[^"]*(?:xbrl|ixbrl|fasb|sec\.gov)[^"]*"`
starting at the opening quote; returns the full quoted length (quotes
included). -/
def xmlnsValueLen (s : Str) : Option Nat :=
  match s with
  | '"' :: rest =>
      let v := rest.takeWhile (· ≠ '"')
      if v.length < rest.length then
        if ciContains "xbrl".data v || ciContains "fasb".data v ||
            ciContains "sec.gov".data v then
          some (1 + v.length + 1)
        else none
      else none
  | _ => none

/-- Anchored match length for `XMLNS_PATTERN`:
`\s+xmlns(?::[a-zA-Z0-9_-]+)?="[^"]*(?:xbrl|ixbrl|fasb|sec\.gov)[^"]*"`. -/
def xmlnsMatchLen (s : Str) : Option Nat :=
  let ws := s.takeWhile pyIsSpace
  if ws.length = 0 then none
  else
    let r1 := s.drop ws.length
    if ciPrefix "xmlns".data r1 then
      let r2 := r1.drop 5
      match r2 with
      | ':' :: r3 =>
          let name := r3.takeWhile isNameChar
          if name.length = 0 then none
          else
            match r3.drop name.length with
            | '=' :: r4 =>
                (xmlnsValueLen r4).map fun k =>
                  ws.length + 5 + 1 + name.length + 1 + k
            | _ => none
      | '=' :: r4 => (xmlnsValueLen r4).map fun k => ws.length + 5 + 1 + k
      | _ => none
    else none

/-- `XMLNS_PATTERN.sub("", result)`. -/
def xmlnsSubGo : Str → Nat → Str
  | [], _ => []
  | _ :: rest, skip + 1 => xmlnsSubGo rest skip
  | c :: rest, 0 =>
      match xmlnsMatchLen (c :: rest) with
      | some k => xmlnsSubGo rest (k - 1)
      | none => c :: xmlnsSubGo rest 0

def xmlnsSub (s : Str) : Str := xmlnsSubGo s 0

/-- Anchored match for `XMLNS_PREFIX_PATTERN`
`xmlns:([a-zA-Z0-9_-]+)="[^"]*(?:xbrl|ixbrl|fasb|sec\.gov)[^"]*"`:
returns the captured prefix name and the match length. -/
def xmlnsPrefixMatchAt (s : Str) : Option (Str × Nat) :=
  if ciPrefix "xmlns:".data s then
    let r3 := s.drop 6
    let name := r3.takeWhile isNameChar
    if name.length = 0 then none
    else
      match r3.drop name.length with
      | '=' :: r4 => (xmlnsValueLen r4).map fun k => (name, 6 + name.length + 1 + k)
      | _ => none
  else none

/-- The `XMLNS_PREFIX_PATTERN.finditer` loop collecting `f"{prefix}:"`. -/
def discoverGo : Str → Nat → List Str
  | [], _ => []
  | _ :: rest, skip + 1 => discoverGo rest skip
  | c :: rest, 0 =>
      match xmlnsPrefixMatchAt (c :: rest) with
      | some (name, k) => (name ++ [':']) :: discoverGo rest (k - 1)
      | none => discoverGo rest 0

def discoverPrefixes (s : Str) : List Str := discoverGo s 0

/-- `re.sub(r"  +", " ", s)`: each run of two or more spaces becomes one. -/
def collapseTwoSpAux : Str → Nat → Str
  | [], run => List.replicate (min run 1) ' '
  | c :: rest, run =>
      if c = ' ' then collapseTwoSpAux rest (run + 1)
      else List.replicate (min run 1) ' ' ++ c :: collapseTwoSpAux rest 0

def collapseTwoSpaces (s : Str) : Str := collapseTwoSpAux s 0

/-- `strip_ixbrl`: remove namespaced annotation tags (built-in plus discovered
prefixes), remove matching xmlns declarations, then collapse double spaces. -/
def stripIxbrl (s : Str) : Str :=
  let prefixes := IXBRL_PREFIXES ++ discoverPrefixes s
  collapseTwoSpaces (xmlnsSub (tagSub prefixes s))

/-- Does any position of `s` match the tag pattern? -/
def hasTagMatch (prefixes : List Str) : Str → Bool
  | [] => false
  | c :: rest => (tagMatchLen prefixes (c :: rest)).isSome || hasTagMatch prefixes rest

/-- Does any position of `s` match `XMLNS_PATTERN`? -/
def hasXmlnsMatch : Str → Bool
  | [] => false
  | c :: rest => (xmlnsMatchLen (c :: rest)).isSome || hasXmlnsMatch rest

example :
    stripIxbrl "<p>Revenue: <ix:nonFraction name=\"x\">119</ix:nonFraction></p>".data =
      "<p>Revenue: 119</p>".data := by decide
example : stripIxbrl "<p>Regular <strong>HTML</strong> content</p>".data =
    "<p>Regular <strong>HTML</strong> content</p>".data := by decide

theorem tagSubGo_id (prefixes : List Str) :
    ∀ s : Str, hasTagMatch prefixes s = false → tagSubGo prefixes s 0 = s := by
  intro s
  induction s with
  | nil => intro _; rfl
  | cons c rest ih =>
      intro h
      simp only [hasTagMatch, Bool.or_eq_false_iff] at h
      rw [show tagSubGo prefixes (c :: rest) 0 = c :: tagSubGo prefixes rest 0 by
        simp only [tagSubGo]
        rw [show tagMatchLen prefixes (c :: rest) = none from
          Option.not_isSome_iff_eq_none.mp (by simp [h.1])]]
      rw [ih h.2]

theorem xmlnsSubGo_id :
    ∀ s : Str, hasXmlnsMatch s = false → xmlnsSubGo s 0 = s := by
  intro s
  induction s with
  | nil => intro _; rfl
  | cons c rest ih =>
      intro h
      simp only [hasXmlnsMatch, Bool.or_eq_false_iff] at h
      rw [show xmlnsSubGo (c :: rest) 0 = c :: xmlnsSubGo rest 0 by
        simp only [xmlnsSubGo]
        rw [show xmlnsMatchLen (c :: rest) = none from
          Option.not_isSome_iff_eq_none.mp (by simp [h.1])]]
      rw [ih h.2]

/-- **C8 (amended).** On markup containing no tag with an annotation prefix
(built-in or discovered) and no matching xmlns declaration, `strip_ixbrl`
returns the input with each run of two or more spaces collapsed to a single
space — not the input unchanged: the final `re.sub(r"  +", " ")` applies
unconditionally to all text. -/
theorem stripIxbrl_no_annotations (s : Str)
    (htag : hasTagMatch (IXBRL_PREFIXES ++ discoverPrefixes s) s = false)
    (hxml : hasXmlnsMatch s = false) :
    stripIxbrl s = collapseTwoSpaces s := by
  show collapseTwoSpaces (xmlnsSubGo (tagSubGo (IXBRL_PREFIXES ++ discoverPrefixes s) s 0) 0) =
    collapseTwoSpaces s
  rw [tagSubGo_id _ s htag, xmlnsSubGo_id s hxml]

theorem stripIxbrl_no_annotations_witness :
    stripIxbrl "<p>hi there</p>".data = collapseTwoSpaces "<p>hi there</p>".data :=
  stripIxbrl_no_annotations "<p>hi there</p>".data (by decide) (by decide)

/-- **C8 counterexample.** `"a  b"` contains no annotation tag and no xmlns
declaration, yet `strip_ixbrl` returns `"a b"`, not the input unchanged: the
double-space cleanup touches non-tag text. -/
theorem stripIxbrl_changes_plain_text :
    hasTagMatch (IXBRL_PREFIXES ++ discoverPrefixes "a  b".data) "a  b".data = false ∧
    hasXmlnsMatch "a  b".data = false ∧
    stripIxbrl "a  b".data = "a b".data ∧
    "a  b".data ≠ "a b".data := by
  refine ⟨by decide, by decide, by decide, by decide⟩

/-! ## Sectionizer model, part 1: `slugify`, `normalize_form_type_for_sections`,
`section_id` (`parse/sectionize.py`) -/

def isLowerAZ (c : Char) : Bool := 'a' ≤ c && c ≤ 'z'
def isDigit09 (c : Char) : Bool := '0' ≤ c && c ≤ '9'

/-- `text.replace(" and ", "_")` (left-to-right, non-overlapping). -/
def replaceAnd : Str → Str
  | ' ' :: 'a' :: 'n' :: 'd' :: ' ' :: rest => '_' :: replaceAnd rest
  | c :: rest => c :: replaceAnd rest
  | [] => []

/-- `text.replace("&", "_")`. -/
def ampToUnd (s : Str) : Str := s.map fun c => if c = '&' then '_' else c

/-- `re.sub(r"[^a-z0-9\s_]", "", text)`. -/
def keepSlugChars (s : Str) : Str :=
  s.filter fun c => isLowerAZ c || isDigit09 c || pyIsSpace c || c = '_'

/-- `re.sub(r"\s+", "_", text)`. -/
def wsToUnd : Str → Bool → Str
  | [], _ => []
  | c :: rest, prev =>
      if pyIsSpace c then
        if prev then wsToUnd rest true else '_' :: wsToUnd rest true
      else c :: wsToUnd rest false

/-- `text.strip("_")`. -/
def stripUnd (s : Str) : Str :=
  ((s.dropWhile (· = '_')).reverse.dropWhile (· = '_')).reverse

/-- `re.sub(r"_+", "_", text)`. -/
def collapseUnd : Str → Bool → Str
  | [], _ => []
  | c :: rest, prev =>
      if c = '_' then
        if prev then collapseUnd rest true else '_' :: collapseUnd rest true
      else c :: collapseUnd rest false

/-- `text[:max_len].rsplit("_", 1)[0]`: everything before the last underscore. -/
def rsplitUndHead (t : Str) : Str := ((t.reverse.dropWhile (· ≠ '_')).drop 1).reverse

/-- The final truncation step of `slugify`. -/
def slugTruncate (t : Str) (maxLen : Nat) : Str :=
  if t.length ≤ maxLen then t
  else
    let head := t.take maxLen
    if '_' ∈ head then rsplitUndHead head else head

/-- `slugify(text, max_len)`. -/
def slugify (text : Str) (maxLen : Nat) : Str :=
  slugTruncate
    (collapseUnd
      (stripUnd (wsToUnd (keepSlugChars (ampToUnd (replaceAnd (text.map Char.toLower)))) false))
      false)
    maxLen

example : slugify "Business Overview".data 30 = "business_overview".data := by decide
example : slugify "Results of Operations".data 30 = "results_of_operations".data := by decide

/-- `form_type.strip().upper().replace(" ", "")`. -/
def formClean (s : Str) : Str := ((pyStrip s).map Char.toUpper).filter (· ≠ ' ')

/-- `form.endswith("/A")`. -/
def endsWithSlashA (l : Str) : Bool := decide (l.reverse.take 2 = ['A', '/'])

/-- `normalize_form_type_for_sections`. -/
def normalizeFormType (form_type : Str) : Str :=
  if form_type = [] then []
  else
    let form := formClean form_type
    let form2 := if endsWithSlashA form then form.take (form.length - 2) else form
    if form2 = "10K".data || form2 = "10-K".data then "10-K".data
    else if form2 = "10Q".data || form2 = "10-Q".data then "10-Q".data
    else if form2 = "8K".data || form2 = "8-K".data then "8-K".data
    else form2

def joinUnd (parts : List Str) : Str := List.intercalate ['_'] parts

/-- The `if part:` contribution to the id parts. -/
def partSeg : Option Str → List Str
  | some p => if p ≠ [] then ["part".data ++ p.map Char.toLower] else []
  | none => []

/-- The `if slug:` contribution. -/
def slugSeg (slug : Str) : List Str := if slug ≠ [] then [slug] else []

/-- The generic branch's `if item:` contribution. -/
def itemSeg (item : Str) : List Str :=
  if item ≠ [] then ["item".data ++ item.map Char.toLower] else []

/-- `section_id(form, part, item, title)`. -/
def sectionId (form : Str) (part : Option Str) (item : Str) (title : Str) : Str :=
  let normalized_form := normalizeFormType form
  let form_lower := (normalized_form.map Char.toLower).filter fun c => isLowerAZ c || isDigit09 c
  let slug := if title = [] then [] else slugify title 30
  if normalized_form = "10-K".data then
    joinUnd (["10k".data] ++ partSeg part ++ ["item".data ++ item.map Char.toLower] ++
      slugSeg slug)
  else if normalized_form = "10-Q".data then
    joinUnd (["10q".data] ++ partSeg part ++ ["item".data ++ item.map Char.toLower] ++
      slugSeg slug)
  else if normalized_form = "8-K".data then
    let item_clean := item.map fun c => if c = '.' then '_' else c
    joinUnd (List.filter (· ≠ []) (["8k_item_".data ++ item_clean] ++ slugSeg slug))
  else
    joinUnd (List.filter (· ≠ [])
      ([form_lower] ++ partSeg part ++ itemSeg item ++ slugSeg slug))

example : sectionId "10-K".data (some "I".data) "1".data "Business".data =
    "10k_parti_item1_business".data := by decide
example : sectionId "8-K".data none "2.02".data "Results of Operations".data =
    "8k_item_2_02_results_of_operations".data := by decide
example : sectionId "10-K/A".data (some "I".data) "1".data "Business".data =
    "10k_parti_item1_business".data := by decide


/-! ### C5: amendment invariance of `section_id` -/

theorem dropWhile_eq_of_length_eq {p : Char → Bool} :
    ∀ {l : Str}, (l.dropWhile p).length = l.length → l.dropWhile p = l := by
  intro l
  induction l with
  | nil => intro _; rfl
  | cons c rest ih =>
      intro h
      by_cases hp : p c
      · exfalso
        rw [List.dropWhile_cons, if_pos hp] at h
        have := dropWhile_length_le p rest
        simp only [List.length_cons] at h
        omega
      · rw [List.dropWhile_cons, if_neg hp]

theorem pyRStrip_length_le (l : Str) : (pyRStrip l).length ≤ l.length := by
  simp only [pyRStrip, List.length_reverse]
  have := dropWhile_length_le pyIsSpace l.reverse
  simpa using this

theorem pyLStrip_eq_of_pyStrip_eq {F : Str} (h : pyStrip F = F) : pyLStrip F = F := by
  have h1 : (pyLStrip F).length ≤ F.length := dropWhile_length_le pyIsSpace F
  have h2 : (pyStrip F).length ≤ (pyLStrip F).length := pyRStrip_length_le (pyLStrip F)
  rw [h] at h2
  have h3 : (F.dropWhile pyIsSpace).length = F.length := by
    simp only [pyLStrip] at h1 h2
    omega
  simpa [pyLStrip] using dropWhile_eq_of_length_eq h3

theorem dropWhile_append_of_ne_nil {p : Char → Bool} {l l' : Str}
    (hne : l ≠ []) (h : l.dropWhile p = l) : (l ++ l').dropWhile p = l ++ l' := by
  cases l with
  | nil => exact absurd rfl hne
  | cons c rest =>
      have hp : p c = false := by
        by_cases hp : p c
        · exfalso
          rw [List.dropWhile_cons, if_pos hp] at h
          have := congrArg List.length h
          have := dropWhile_length_le p rest
          simp only [List.length_cons] at *
          omega
        · simpa using hp
      rw [List.cons_append, List.dropWhile_cons]
      simp [hp]

theorem pyRStrip_append_slashA (x : Str) : pyRStrip (x ++ ['/', 'A']) = x ++ ['/', 'A'] := by
  simp only [pyRStrip, List.reverse_append]
  rw [show (['/', 'A'] : Str).reverse = ['A', '/'] from rfl]
  rw [show (['A', '/'] ++ x.reverse).dropWhile pyIsSpace = ['A', '/'] ++ x.reverse by
    simp [List.dropWhile_cons, pyIsSpace]]
  simp

theorem pyStrip_append_slashA {F : Str} (h : pyStrip F = F) :
    pyStrip (F ++ ['/', 'A']) = F ++ ['/', 'A'] := by
  by_cases hF : F = []
  · subst hF; decide
  · have hl := pyLStrip_eq_of_pyStrip_eq h
    have h1 : pyLStrip (F ++ ['/', 'A']) = F ++ ['/', 'A'] :=
      dropWhile_append_of_ne_nil hF hl
    simp only [pyStrip]
    rw [h1]
    exact pyRStrip_append_slashA F

theorem formClean_append_slashA {F : Str} (h : pyStrip F = F) :
    formClean (F ++ ['/', 'A']) = formClean F ++ ['/', 'A'] := by
  simp only [formClean]
  rw [pyStrip_append_slashA h, h]
  rw [List.map_append, List.filter_append]
  rfl

theorem endsWithSlashA_append (x : Str) : endsWithSlashA (x ++ ['/', 'A']) = true := by
  simp [endsWithSlashA, List.reverse_append]

theorem take_sub_two_append (x : Str) :
    (x ++ ['/', 'A']).take ((x ++ ['/', 'A']).length - 2) = x := by
  have hlen : (x ++ ['/', 'A']).length - 2 = x.length := by
    simp
  rw [hlen]
  exact List.take_left x ['/', 'A']

theorem normalizeFormType_append_slashA {F : Str} (hstrip : pyStrip F = F)
    (hne : endsWithSlashA (formClean F) = false) :
    normalizeFormType (F ++ ['/', 'A']) = normalizeFormType F := by
  have happnil : F ++ ['/', 'A'] ≠ [] := by simp
  by_cases hF : F = []
  · subst hF
    decide
  · simp only [normalizeFormType, if_neg happnil, if_neg hF]
    rw [formClean_append_slashA hstrip, endsWithSlashA_append, if_pos rfl,
      take_sub_two_append, hne]
    simp

theorem sectionId_congr {F1 F2 : Str} (h : normalizeFormType F1 = normalizeFormType F2)
    (part : Option Str) (item title : Str) :
    sectionId F1 part item title = sectionId F2 part item title := by
  simp only [sectionId]
  rw [h]

/-- **C5 (amended).** `section_id` is invariant under appending the amendment
suffix `"/A"` to the form — provided the form is not itself already an
amendment and carries no leading/trailing whitespace (`pyStrip F = F`); the
claim's two concrete instances hold as stated. -/
theorem sectionId_amendment_invariant :
    (∀ (F : Str) (part : Option Str) (item title : Str),
      pyStrip F = F → endsWithSlashA (formClean F) = false →
      sectionId (F ++ ['/', 'A']) part item title = sectionId F part item title) ∧
    sectionId "10-K/A".data (some "I".data) "1".data "Business".data =
      "10k_parti_item1_business".data ∧
    sectionId "10-K".data (some "I".data) "1".data "Business".data =
      "10k_parti_item1_business".data ∧
    sectionId "8-K".data none "2.02".data "Results of Operations".data =
      "8k_item_2_02_results_of_operations".data := by
  refine ⟨?_, by decide, by decide, by decide⟩
  intro F part item title hstrip hne
  exact sectionId_congr (normalizeFormType_append_slashA hstrip hne) part item title

theorem sectionId_amendment_invariant_witness :
    sectionId ("10-K".data ++ ['/', 'A']) (some "I".data) "1".data "Business".data =
      sectionId "10-K".data (some "I".data) "1".data "Business".data :=
  sectionId_amendment_invariant.1 "10-K".data (some "I".data) "1".data "Business".data
    (by decide) (by decide)

/-- **C5 counterexample.** For `F = "10-K/A"` (an already-amended form) the
claimed invariance fails: `section_id("10-K/A/A", "I", "1", "Business")`
normalizes only one `/A` away, falls into the generic branch and yields
`"10ka_parti_item1_business"`, not `"10k_parti_item1_business"`. -/
theorem sectionId_double_amendment_counterexample :
    sectionId ("10-K/A".data ++ ['/', 'A']) (some "I".data) "1".data "Business".data =
      "10ka_parti_item1_business".data ∧
    sectionId "10-K/A".data (some "I".data) "1".data "Business".data =
      "10k_parti_item1_business".data ∧
    sectionId ("10-K/A".data ++ ['/', 'A']) (some "I".data) "1".data "Business".data ≠
      sectionId "10-K/A".data (some "I".data) "1".data "Business".data := by
  refine ⟨by decide, by decide, by decide⟩

/-! ## Sectionizer model, part 2: the heading matchers (`parse/sectionize.py`)

Each Python regex is translated to a deterministic matcher; greedy
subexpressions whose backtracking can never change the overall result (all
cases here — the follow-set of each greedy token is disjoint from the token's
character class) are implemented greedily. `\w`, `islower()` etc. are modelled
over ASCII, as in the patterns' own character classes. -/

def isUpperAZ (c : Char) : Bool := 'A' ≤ c && c ≤ 'Z'
def isAsciiLetter (c : Char) : Bool := isLowerAZ c || isUpperAZ c
def wordChar (c : Char) : Bool := isAsciiLetter c || isDigit09 c || c = '_'
def isRoman (c : Char) : Bool :=
  c = 'I' || c = 'V' || c = 'X' || c = 'i' || c = 'v' || c = 'x'
def isSepChar (c : Char) : Bool :=
  c = '-' || c = '–' || c = '—' || c = '.' || c = ',' || c = ':' || c = ';'

/-- `(?:#+\s*)?` (leading markdown hashes). -/
def dropHashPrefix (s : Str) : Str :=
  let hashes := s.takeWhile (· = '#')
  if hashes.isEmpty then s else (s.drop hashes.length).dropWhile pyIsSpace

/-- `(?:[.)]\s*)?`. -/
def dropPunctPrefix (s : Str) : Str :=
  match s with
  | c :: rest => if c = '.' || c = ')' then rest.dropWhile pyIsSpace else c :: rest
  | [] => []

/-- `(?:\d+\s*)?` (page-number prefix). -/
def dropDigitPrefix (s : Str) : Str :=
  let ds := s.takeWhile isDigit09
  if ds.isEmpty then s else (s.drop ds.length).dropWhile pyIsSpace

/-- `(?P<item>\d+[A-Z]?)\b` (with IGNORECASE the letter class is `[A-Za-z]`):
returns the captured item and the rest. -/
def matchItemNum (s : Str) : Option (Str × Str) :=
  let ds := s.takeWhile isDigit09
  if ds.isEmpty then none
  else
    match s.drop ds.length with
    | c :: r2 =>
        if isAsciiLetter c then
          match r2 with
          | d :: _ => if wordChar d then none else some (ds ++ [c], r2)
          | [] => some (ds ++ [c], [])
        else if wordChar c then none
        else some (ds, c :: r2)
    | [] => some (ds, [])

/-- `(?:\s*SEP\s*)?(?P<title>.*)$`: when an (optional) separator follows, the
title starts after it; otherwise the title is the untouched rest. -/
def sepTitle (s : Str) : Str :=
  let sp := s.takeWhile pyIsSpace
  match s.drop sp.length with
  | c :: r2 => if isSepChar c then r2.dropWhile pyIsSpace else s
  | [] => s

/-- The optional `PART\s+(?P<part>[IVX]+)\b\s*SEP?\s*` clause of
`ITEM_PATTERN_10K`: on success returns the raw roman capture and the rest. -/
def matchPartClause (s : Str) : Option (Str × Str) :=
  if ciPrefix "PART".data s then
    let r1 := s.drop 4
    let sp := r1.takeWhile pyIsSpace
    if sp.isEmpty then none
    else
      let r2 := r1.drop sp.length
      let rom := r2.takeWhile isRoman
      if rom.isEmpty then none
      else
        let r3 := r2.drop rom.length
        if (match r3 with | c :: _ => wordChar c | [] => false) then none
        else
          let r4 := r3.dropWhile pyIsSpace
          let r5 := match r4 with
            | c :: rr => if isSepChar c then rr.dropWhile pyIsSpace else r4
            | [] => r4
          some (rom, r5)
  else none

structure Item10KResult where
  part : Option Str
  item : Str
  title : Str
deriving DecidableEq, Repr

/-- `ITEM_PATTERN_10K.match(s)`. -/
def item10KMatch (s : Str) : Option Item10KResult :=
  let s1 := dropDigitPrefix (dropPunctPrefix (dropHashPrefix s))
  let pc := matchPartClause s1
  let part : Option Str := pc.map Prod.fst
  let s2 := (pc.map Prod.snd).getD s1
  if ciPrefix "ITEM".data s2 then
    match matchItemNum ((s2.drop 4).dropWhile pyIsSpace) with
    | some (item, rest) => some ⟨part, item, sepTitle rest⟩
    | none => none
  else none

structure Item8KResult where
  item : Str
  title : Str
deriving DecidableEq, Repr

/-- `(?P<item>\d+\.\d+)\b`: returns the captured item and the rest. -/
def match8KItemNum (s : Str) : Option (Str × Str) :=
  let d1 := s.takeWhile isDigit09
  if d1.isEmpty then none
  else
    match s.drop d1.length with
    | '.' :: r2 =>
        let d2 := r2.takeWhile isDigit09
        if d2.isEmpty then none
        else
          let r3 := r2.drop d2.length
          if (match r3 with | c :: _ => wordChar c | [] => false) then none
          else some (d1 ++ '.' :: d2, r3)
    | _ => none

/-- `ITEM_PATTERN_8K.match(s)` (`ITEM\s+` requires at least one space). -/
def item8KMatch (s : Str) : Option Item8KResult :=
  let s1 := dropDigitPrefix (dropPunctPrefix (dropHashPrefix s))
  if ciPrefix "ITEM".data s1 then
    let r1 := s1.drop 4
    let sp := r1.takeWhile pyIsSpace
    if sp.isEmpty then none
    else
      match match8KItemNum (r1.drop sp.length) with
      | some (item, rest) => some ⟨item, sepTitle rest⟩
      | none => none
  else none

/-- `PART_HEADING_PATTERN.match(s)`: a standalone part heading — either nothing
after the roman numeral, or a separator and then anything. -/
def partHeadingMatch (s : Str) : Option Str :=
  let s1 := dropDigitPrefix (dropPunctPrefix (dropHashPrefix s))
  if ciPrefix "PART".data s1 then
    let r1 := s1.drop 4
    let sp := r1.takeWhile pyIsSpace
    if sp.isEmpty then none
    else
      let r2 := r1.drop sp.length
      let rom := r2.takeWhile isRoman
      if rom.isEmpty then none
      else
        let r3 := r2.drop rom.length
        if (match r3 with | c :: _ => wordChar c | [] => false) then none
        else if r3.isEmpty then some rom
        else
          match r3.dropWhile pyIsSpace with
          | c :: _ => if isSepChar c then some rom else none
          | [] => none
  else none

example : item10KMatch "Item 1".data = some ⟨none, "1".data, "".data⟩ := by decide
example : item10KMatch "ITEM 1A. Risk Factors".data =
    some ⟨none, "1A".data, "Risk Factors".data⟩ := by decide
example : item10KMatch "2 Part I - Item 1. Business".data =
    some ⟨some "I".data, "1".data, "Business".data⟩ := by decide
example : item10KMatch "2Part I. Financial InformationItem 1. Financial Statements".data =
    none := by decide
example : partHeadingMatch "2Part I. Financial InformationItem 1.".data =
    some "I".data := by decide
example : partHeadingMatch "Part II".data = some "II".data := by decide
example : partHeadingMatch "Part I Financial Information".data = none := by decide
example : item8KMatch "ITEM 1.01 Entry into a Material Definitive Agreement".data =
    some ⟨"1.01".data, " Entry into a Material Definitive Agreement".data⟩ := by decide

/-! ### Titled sections, bold headings, inline scans, table cells -/

def ciTok (lit s : Str) : Option Str :=
  if ciPrefix lit s then some (s.drop lit.length) else none

/-- `\s+`. -/
def matchWS1 (s : Str) : Option Str :=
  let sp := s.takeWhile pyIsSpace
  if sp.isEmpty then none else some (s.drop sp.length)

/-- `SIGNATURES?`. -/
def altSignatures (s : Str) : Option Str :=
  (ciTok "SIGNATURE".data s).map fun r =>
    match r with
    | c :: rest => if c.toLower = 's' then rest else c :: rest
    | [] => []

/-- `INDEX\s+TO\s+(?:FINANCIAL\s+)?(?:STATEMENTS|EXHIBITS)`. -/
def altIndexTo (s : Str) : Option Str :=
  (((ciTok "INDEX".data s).bind matchWS1).bind (ciTok "TO".data)).bind matchWS1 |>.bind fun r =>
    (((ciTok "FINANCIAL".data r).bind matchWS1).bind fun r2 =>
      ciTok "STATEMENTS".data r2 <|> ciTok "EXHIBITS".data r2) <|>
    ciTok "STATEMENTS".data r <|> ciTok "EXHIBITS".data r

/-- `TABLE\s+OF\s+CONTENTS`. -/
def altTOC (s : Str) : Option Str :=
  ((((ciTok "TABLE".data s).bind matchWS1).bind (ciTok "OF".data)).bind matchWS1).bind
    (ciTok "CONTENTS".data)

/-- `EXHIBITS?\s+INDEX`. -/
def altExhibitsIndex (s : Str) : Option Str :=
  (ciTok "EXHIBIT".data s).bind fun r =>
    let r2 := match r with
      | c :: rest => if c.toLower = 's' then rest else c :: rest
      | [] => []
    (matchWS1 r2).bind (ciTok "INDEX".data)

/-- `FINANCIAL\s+STATEMENTS`. -/
def altFinStatements (s : Str) : Option Str :=
  ((ciTok "FINANCIAL".data s).bind matchWS1).bind (ciTok "STATEMENTS".data)

/-- `NOTES\s+TO\s+(?:CONSOLIDATED\s+)?FINANCIAL\s+STATEMENTS`. -/
def altNotes (s : Str) : Option Str :=
  (((ciTok "NOTES".data s).bind matchWS1).bind (ciTok "TO".data)).bind matchWS1 |>.bind fun r =>
    ((((ciTok "CONSOLIDATED".data r).bind matchWS1).bind (ciTok "FINANCIAL".data)).bind
        matchWS1).bind (ciTok "STATEMENTS".data) <|>
    (((ciTok "FINANCIAL".data r).bind matchWS1).bind (ciTok "STATEMENTS".data))

/-- `TITLED_SECTION_PATTERN.match(line_stripped)`: tries the alternatives in
the pattern's order, each followed by the `\s*$` check; returns the raw title
capture. -/
def titledMatch (ls : Str) : Option Str :=
  let base := dropHashPrefix ls
  let tryAlt : (Str → Option Str) → Option Str := fun alt =>
    match alt base with
    | some rest => if rest.all pyIsSpace then some (base.take (base.length - rest.length))
        else none
    | none => none
  tryAlt altSignatures <|> tryAlt altIndexTo <|> tryAlt altTOC <|>
    tryAlt altExhibitsIndex <|> tryAlt altFinStatements <|> tryAlt altNotes

/-- A fixed substring test (after upper-casing, for `_should_ignore_title`). -/
def isSubstring (needle : Str) : Str → Bool
  | [] => needle.isEmpty
  | c :: rest => needle.isPrefixOf (c :: rest) || isSubstring needle rest

/-- `_should_ignore_title`. -/
def shouldIgnoreTitle (title : Str) : Bool :=
  let upper := pyStrip (title.map Char.toUpper)
  isSubstring "TABLE OF CONTENTS".data upper ||
  upper = "PROSPECTUS".data || upper = "PROSPECTUS SUPPLEMENT".data ||
  upper = "PRELIMINARY PROSPECTUS".data || upper = "FINAL PROSPECTUS".data ||
  "PROSPECTUS DATED".data.isPrefixOf upper

/-- `re.sub(r"([a-z0-9])([A-Z])", r"\1 \2", t)` (non-overlapping pairs). -/
def camelSplit : Str → Str
  | a :: b :: rest =>
      if (isLowerAZ a || isDigit09 a) && isUpperAZ b then a :: ' ' :: b :: camelSplit rest
      else a :: camelSplit (b :: rest)
  | l => l

/-- `_clean_title`. -/
def cleanTitleFn (raw : Str) : Str := camelSplit (pyStrip (collapseWsRuns raw))

def rsplitSpaceHead (t : Str) : Str := ((t.reverse.dropWhile (· ≠ ' ')).drop 1).reverse

/-- `_truncate_title`. -/
def truncateTitle (t : Str) : Str :=
  if t.length ≤ 100 then t
  else
    let head := t.take 100
    if ' ' ∈ head then rsplitSpaceHead head else head

/-- `_is_valid_general_heading(title, line, start)` (the 80% ratio test
`upper/letters ≥ 0.8` is the exact rational comparison `4*letters ≤ 5*upper`). -/
def isValidGeneralHeading (title line : Str) (start : Nat) : Bool :=
  !title.isEmpty && !shouldIgnoreTitle title &&
  (pyStrip (line.take start)).isEmpty &&
  (let letters := title.filter isAsciiLetter
   4 ≤ letters.length && 4 * letters.length ≤ 5 * (letters.filter isUpperAZ).length)

def isBoldFirst (c : Char) : Bool := isUpperAZ c || isDigit09 c
def isBoldBody (c : Char) : Bool :=
  isUpperAZ c || isDigit09 c || c = ' ' || c = '&' || c = '/' || c = '(' || c = ')' ||
  c = '.' || c = ',' || c = '\'' || c = '-' || c = '–' || c = '—'

/-- Anchored `BOLD_HEADING_PATTERN` match: `\*\*([A-Z0-9][class]+?)\*\*`; the
lazy body cannot contain `*`, so it extends exactly to the next `*`, which
must start a closing `**`. -/
def boldMatchAt (s : Str) : Option (Str × Nat) :=
  match s with
  | '*' :: '*' :: c0 :: rest =>
      if isBoldFirst c0 then
        let body := rest.takeWhile isBoldBody
        if body.isEmpty then none
        else
          match rest.drop body.length with
          | '*' :: '*' :: _ => some (c0 :: body, 2 + 1 + body.length + 2)
          | _ => none
      else none
  | _ => none

/-- Generic `finditer` scanner: collects `(start, capture)` for each leftmost
non-overlapping match, resuming after each match end. -/
def scanWith (matchAt : Str → Option (Str × Nat)) : Str → Nat → Nat → List (Nat × Str)
  | [], _, _ => []
  | _ :: rest, pos, skip + 1 => scanWith matchAt rest (pos + 1) skip
  | c :: rest, pos, 0 =>
      match matchAt (c :: rest) with
      | some (v, k) => (pos, v) :: scanWith matchAt rest (pos + 1) (k - 1)
      | none => scanWith matchAt rest (pos + 1) 0

def boldFinditer (line : Str) : List (Nat × Str) := boldGoWrap
  where boldGoWrap := scanWith boldMatchAt line 0 0

/-- Anchored `PART\s+([IVX]+)\b` (as used by `re.search`/`re.finditer`). -/
def partSearchMatchAt (s : Str) : Option (Str × Nat) :=
  if ciPrefix "PART".data s then
    let r1 := s.drop 4
    let sp := r1.takeWhile pyIsSpace
    if sp.isEmpty then none
    else
      let r2 := r1.drop sp.length
      let rom := r2.takeWhile isRoman
      if rom.isEmpty then none
      else if (match r2.drop rom.length with | c :: _ => wordChar c | [] => false) then none
      else some (rom, 4 + sp.length + rom.length)
  else none

/-- Anchored `ITEM\s*(\d+[A-Z]?)\b`. -/
def item10KSearchMatchAt (s : Str) : Option (Str × Nat) :=
  if ciPrefix "ITEM".data s then
    let r1 := s.drop 4
    let sp := r1.takeWhile pyIsSpace
    match matchItemNum (r1.drop sp.length) with
    | some (item, _) => some (item, 4 + sp.length + item.length)
    | none => none
  else none

/-- Anchored `ITEM\s+(\d+\.\d+)\b`. -/
def item8KSearchMatchAt (s : Str) : Option (Str × Nat) :=
  if ciPrefix "ITEM".data s then
    let r1 := s.drop 4
    let sp := r1.takeWhile pyIsSpace
    if sp.isEmpty then none
    else
      match match8KItemNum (r1.drop sp.length) with
      | some (item, _) => some (item, 4 + sp.length + item.length)
      | none => none
  else none

/-- `re.search(r"\bPART\s+([IVX]+)\b", cell)`: first match with a word
boundary before `PART`. -/
def searchPartGo : Str → Option Char → Option Str
  | [], _ => none
  | c :: rest, prev =>
      if prev.elim true (fun p => !wordChar p) then
        match partSearchMatchAt (c :: rest) with
        | some (rom, _) => some rom
        | none => searchPartGo rest (some c)
      else searchPartGo rest (some c)

/-- `_extract_part(cell)`. -/
def extractPart (cell : Str) : Option Str :=
  match partHeadingMatch cell with
  | some rom => some (rom.map Char.toUpper)
  | none =>
      match searchPartGo cell none with
      | some rom => some (rom.map Char.toUpper)
      | none => none

/-- `re.split(r"(?<!\\)\|", row)`: split at unescaped pipes. -/
def splitCellsGo : Str → Str → List Str
  | [], cur => [cur.reverse]
  | c :: rest, cur =>
      if c = '|' then
        if cur.head? = some '\\' then splitCellsGo rest ('|' :: cur)
        else cur.reverse :: splitCellsGo rest []
      else splitCellsGo rest (c :: cur)

/-- `_split_table_cells(row)`. -/
def splitTableCells (row : Str) : List Str :=
  let p1 := splitCellsGo row []
  let p2 := match p1 with
    | p :: rest => if (pyStrip p).isEmpty then rest else p1
    | [] => p1
  let p3 := match p2.getLast? with
    | some p => if (pyStrip p).isEmpty then p2.dropLast else p2
    | none => p2
  p3.map pyStrip

/-- `_is_table_row(s)`. -/
def isTableRow (ls : Str) : Bool := ls.head? = some '|' && 2 ≤ ls.count '|'

/-- `re.search(r"\btable\s+of\s+contents\b", s, IGNORECASE)` anchored at a
position. -/
def tocMatchAt (s : Str) : Bool :=
  match (((((ciTok "TABLE".data s).bind matchWS1).bind (ciTok "OF".data)).bind
      matchWS1).bind (ciTok "CONTENTS".data)) with
  | some rest => match rest with | c :: _ => !wordChar c | [] => true
  | none => false

/-- The `re.search` for the TOC phrase over the whole line. -/
def tocSearchGo : Str → Option Char → Bool
  | [], _ => false
  | c :: rest, prev =>
      (prev.elim true (fun p => !wordChar p) && tocMatchAt (c :: rest)) ||
        tocSearchGo rest (some c)

def hasTocPhrase (ls : Str) : Bool := tocSearchGo ls none

example : titledMatch "SIGNATURES".data = some "SIGNATURES".data := by decide
example : titledMatch "## Table of Contents".data = some "Table of Contents".data := by decide
example : titledMatch "NOTES TO CONSOLIDATED FINANCIAL STATEMENTS  ".data =
    some "NOTES TO CONSOLIDATED FINANCIAL STATEMENTS".data := by decide
example : titledMatch "SIGNATURE PAGE".data = none := by decide
example : shouldIgnoreTitle "Table of Contents".data = true := by decide
example : hasTocPhrase "See the Table of Contents below".data = true := by decide
example : hasTocPhrase "tablet of contents".data = false := by decide
example : splitTableCells "| Item 1. | Business | 3 |".data =
    ["Item 1.".data, "Business".data, "3".data] := by decide
example : cleanTitleFn "Revenue:NetInterest".data = "Revenue:Net Interest".data := by decide

/-! ## Sectionizer model, part 3: the line scanner and `sectionize` -/

structure SectionMatch where
  line_num : Nat
  char_pos : Nat
  part : Option Str
  item : Str
  title : Str
  form_type : Str
deriving DecidableEq, Repr

structure ScanState where
  current_part : Option Str
  toc_armed : Bool
  in_toc_table : Bool
  seen_titles : List Str
deriving DecidableEq, Repr

/-- `_add_item_match` (title cleanup applied on append). -/
def mkMatch (formType : Str) (lineNum charPos : Nat) (part : Option Str)
    (item title : Str) : SectionMatch :=
  ⟨lineNum, charPos, part, item, truncateTitle (cleanTitleFn title), formType⟩

/-- `prev.islower() or prev.isdigit() or prev in ".:;)|]"` (inline-scan guard). -/
def prevCharOk (c : Char) : Bool :=
  isLowerAZ c || isDigit09 c || c = '.' || c = ':' || c = ';' || c = ')' || c = '|' || c = ']'

/-- Keep only inline matches at `start ≥ 20` whose previous character passes
the guard. -/
def inlineFilter (line : Str) (ms : List (Nat × Str)) : List (Nat × Str) :=
  ms.filter fun pv => 20 ≤ pv.1 && (line.get? (pv.1 - 1)).elim false prevCharOk

/-- The 10-K/10-Q inline event list: part and item markers found mid-line,
merged in start order (`events.sort(key=e[0])`; starts are distinct). -/
def insertEvent (x : Nat × Bool × Str) : List (Nat × Bool × Str) → List (Nat × Bool × Str)
  | [] => [x]
  | y :: ys => if x.1 ≤ y.1 then x :: y :: ys else y :: insertEvent x ys

def inlineEvents10K (line : Str) : List (Nat × Bool × Str) :=
  let ps := (inlineFilter line (scanWith partSearchMatchAt line 0 0)).map
    fun pv => (pv.1, true, pv.2)
  let its := (inlineFilter line (scanWith item10KSearchMatchAt line 0 0)).map
    fun pv => (pv.1, false, pv.2)
  (ps ++ its).foldr insertEvent []

/-- Processing the sorted inline events: part events update `current_part`,
item events emit a match carrying the part current at that moment. -/
def processEvents (formType line : Str) (lineNum offset : Nat) :
    List (Nat × Bool × Str) → Option Str → Option Str × List SectionMatch
  | [], cp => (cp, [])
  | (start, isPart, v) :: rest, cp =>
      if isPart then processEvents formType line lineNum offset rest (some (v.map Char.toUpper))
      else
        let tail := pyStrip (line.drop start)
        let title := match item10KMatch tail with
          | some r => pyStrip r.title
          | none => []
        let m := mkMatch formType lineNum (offset + start) cp v title
        let (cp2, ms) := processEvents formType line lineNum offset rest cp
        (cp2, m :: ms)

/-- `_match_item_in_cell(cell, ITEM_PATTERN_10K, r"ITEM\s*\d+[A-Z]?\b")`. -/
def matchItemInCell10KGo (cell : Str) : List (Nat × Str) → Option Item10KResult
  | [] => none
  | (p, _) :: rest =>
      match item10KMatch (pyStrip (cell.drop p)) with
      | some m => some m
      | none => matchItemInCell10KGo cell rest

def matchItemInCell10K (cell : Str) : Option Item10KResult :=
  match item10KMatch cell with
  | some m => some m
  | none => matchItemInCell10KGo cell (scanWith item10KSearchMatchAt cell 0 0)

/-- `_match_item_in_cell(cell, ITEM_PATTERN_8K, r"ITEM\s+\d+\.\d+\b")`. -/
def matchItemInCell8KGo (cell : Str) : List (Nat × Str) → Option Item8KResult
  | [] => none
  | (p, _) :: rest =>
      match item8KMatch (pyStrip (cell.drop p)) with
      | some m => some m
      | none => matchItemInCell8KGo cell rest

def matchItemInCell8K (cell : Str) : Option Item8KResult :=
  match item8KMatch cell with
  | some m => some m
  | none => matchItemInCell8KGo cell (scanWith item8KSearchMatchAt cell 0 0)

/-- The 10-K/10-Q table-row branch: first matching cell wins (`break`). -/
def tableGo10K (formType : Str) (lineNum offset : Nat) (cells : List Str) :
    List Str → Nat → Option Str → Option Str × List SectionMatch
  | [], _, cp => (cp, [])
  | cell :: rest, idx, cp =>
      match matchItemInCell10K cell with
      | none => tableGo10K formType lineNum offset cells rest (idx + 1) cp
      | some m =>
          let part0 : Option Str := match m.part with | some p => some p | none => cp
          let partU := part0.map (List.map Char.toUpper)
          let cp2 := match partU with | some p => some p | none => cp
          let title0 := pyStrip m.title
          let title := if title0.isEmpty then ((cells.get? (idx + 1)).getD []) else title0
          (cp2, [mkMatch formType lineNum offset partU m.item title])

/-- The 8-K table-row branch. -/
def tableGo8K (formType : Str) (lineNum offset : Nat) (cells : List Str) :
    List Str → Nat → List SectionMatch
  | [], _ => []
  | cell :: rest, idx =>
      match matchItemInCell8K cell with
      | none => tableGo8K formType lineNum offset cells rest (idx + 1)
      | some m =>
          let title0 := pyStrip m.title
          let title := if title0.isEmpty then ((cells.get? (idx + 1)).getD []) else title0
          [mkMatch formType lineNum offset none m.item title]

/-- The 8-K non-table branch: anchored match plus the inline scan. -/
def nonTable8K (formType ls line : Str) (lineNum offset : Nat) : List SectionMatch :=
  let anchored := match item8KMatch ls with
    | some m => [mkMatch formType lineNum offset none m.item (pyStrip m.title)]
    | none => []
  let inline := (inlineFilter line (scanWith item8KSearchMatchAt line 0 0)).map fun pv =>
    let title := match item8KMatch (pyStrip (line.drop pv.1)) with
      | some r => pyStrip r.title
      | none => []
    mkMatch formType lineNum (offset + pv.1) none pv.2 title
  anchored ++ inline

/-- The 10-K/10-Q non-table branch: anchored match, then inline events. -/
def nonTable10K (formType ls line : Str) (lineNum offset : Nat) (cp : Option Str) :
    Option Str × List SectionMatch :=
  let (cp1, ms1) := match item10KMatch ls with
    | some m =>
        let part0 : Option Str := match m.part with | some p => some p | none => cp
        let partU := part0.map (List.map Char.toUpper)
        let cp2 := match partU with | some p => some p | none => cp
        (cp2, [mkMatch formType lineNum offset partU m.item (pyStrip m.title)])
    | none => (cp, [])
  let (cp2, ms2) := processEvents formType line lineNum offset (inlineEvents10K line) cp1
  (cp2, ms1 ++ ms2)

/-- The general-form bold-heading pass (dedup by slug key). -/
def generalBoldGo (formType line : Str) (lineNum offset : Nat) :
    List (Nat × Str) → List Str → List Str × List SectionMatch
  | [], seen => (seen, [])
  | (p, rawTitle) :: rest, seen =>
      let title := pyStrip rawTitle
      if isValidGeneralHeading title line p then
        let key := slugify title 60
        if key ∈ seen then generalBoldGo formType line lineNum offset rest seen
        else
          let (seen2, ms) := generalBoldGo formType line lineNum offset rest (key :: seen)
          (seen2, mkMatch formType lineNum (offset + p) none "other".data title :: ms)
      else generalBoldGo formType line lineNum offset rest seen

/-- The general-form `#`-heading pass. -/
def generalHash (formType line ls : Str) (lineNum offset : Nat) (seen : List Str) :
    List Str × List SectionMatch :=
  if ls.head? = some '#' then
    let title := pyStrip (ls.dropWhile (· = '#'))
    let hashIdx := (line.takeWhile (· ≠ '#')).length
    if isValidGeneralHeading title line hashIdx then
      let key := slugify title 60
      if key ∈ seen then (seen, [])
      else (key :: seen, [mkMatch formType lineNum offset none "other".data title])
    else (seen, [])
  else (seen, [])

/-- One iteration of `find_sections`'s `for line_num, line in enumerate(lines)`
loop (Python's sequential mutation of the TOC flags is threaded explicitly). -/
def processLine (formType formUpper : Str) (lineNum offset : Nat) (line : Str)
    (st : ScanState) : ScanState × List SectionMatch :=
  let ls := pyStrip line
  if ls.isEmpty then
    (if st.in_toc_table then { st with in_toc_table := false, toc_armed := false } else st, [])
  else
    let armed1 := st.toc_armed || hasTocPhrase ls
    let is_table := isTableRow ls
    let (armed2, inT2) :=
      if st.in_toc_table && !is_table then (false, false) else (armed1, st.in_toc_table)
    let inT3 := if is_table && armed2 && !inT2 then true else inT2
    if inT3 && is_table then
      ({ st with toc_armed := armed2, in_toc_table := inT3 }, [])
    else
      let cp0 : Option Str :=
        if is_table then
          match (splitTableCells ls).findSome? extractPart with
          | some p => some p
          | none => st.current_part
        else
          match partHeadingMatch ls with
          | some rom => some (rom.map Char.toUpper)
          | none => st.current_part
      let isGeneral := !(formUpper = "10-K".data || formUpper = "10-Q".data ||
        formUpper = "8-K".data)
      if isGeneral then
        let (seen1, ms1) := generalBoldGo formType line lineNum offset
          (boldFinditer line) st.seen_titles
        let (seen2, ms2) := generalHash formType line ls lineNum offset seen1
        (⟨cp0, armed2, inT3, seen2⟩, ms1 ++ ms2)
      else
        let (cp1, msItems) :=
          if formUpper = "8-K".data then
            if is_table then
              (cp0, tableGo8K formType lineNum offset (splitTableCells ls)
                (splitTableCells ls) 0)
            else (cp0, nonTable8K formType ls line lineNum offset)
          else
            if is_table then
              tableGo10K formType lineNum offset (splitTableCells ls)
                (splitTableCells ls) 0 cp0
            else nonTable10K formType ls line lineNum offset cp0
        let msTitled :=
          if !is_table then
            match titledMatch ls with
            | some t =>
                if shouldIgnoreTitle t then []
                else [mkMatch formType lineNum offset cp1 "other".data t]
            | none => []
          else []
        (⟨cp1, armed2, inT3, st.seen_titles⟩, msItems ++ msTitled)

/-- The whole line loop, concatenating each line's matches. -/
def scanLines (formType formUpper : Str) :
    List Str → Nat → Nat → ScanState → List SectionMatch
  | [], _, _, _ => []
  | line :: rest, lineNum, offset, st =>
      let (st2, ms) := processLine formType formUpper lineNum offset line st
      ms ++ scanLines formType formUpper rest (lineNum + 1) (offset + line.length + 1) st2

/-- `matches.sort(key=lambda m: (m.char_pos, m.line_num))` — stable insertion
sort on that key. -/
def leMatchKey (a b : SectionMatch) : Bool :=
  a.char_pos < b.char_pos || (a.char_pos = b.char_pos && a.line_num ≤ b.line_num)

def insertMatch (x : SectionMatch) : List SectionMatch → List SectionMatch
  | [] => [x]
  | y :: ys => if leMatchKey x y then x :: y :: ys else y :: insertMatch x ys

def sortMatches (l : List SectionMatch) : List SectionMatch := l.foldr insertMatch []

/-- The dedup-by-`char_pos` pass (first occurrence wins). -/
def dedupByPos : List SectionMatch → List Nat → List SectionMatch
  | [], _ => []
  | m :: rest, seen =>
      if m.char_pos ∈ seen then dedupByPos rest seen
      else m :: dedupByPos rest (m.char_pos :: seen)

/-- `find_sections(markdown, form_type)`. -/
def findSections (markdown formType : Str) : List SectionMatch :=
  let lines := markdown.splitOn '\n'
  let formUpper := (normalizeFormType formType).map Char.toUpper
  let raw := scanLines formType formUpper lines 0 0 ⟨none, false, false, []⟩
  dedupByPos (sortMatches raw) []

/-- The per-match `Section` construction of `sectionize` (each section ends at
the next match's position, the last at document end). -/
def buildSections (markdown formType : Str) (total : Nat) : List SectionMatch → List Section
  | [] => []
  | m :: rest =>
      let char_end := match rest with | m2 :: _ => m2.char_pos | [] => total
      { id := sectionId formType m.part m.item m.title,
        title := if m.title.isEmpty then "Item ".data ++ m.item else m.title,
        content := pyStrip (strSlice markdown m.char_pos char_end),
        char_start := m.char_pos, char_end := char_end, warnings := [] } ::
        buildSections markdown formType total rest

/-- Association-list model of the `seen_ids` dict. -/
def lookupSeen : List (Str × Nat) → Str → Option Nat
  | [], _ => none
  | (k, v) :: rest, key => if k = key then some v else lookupSeen rest key

def setSeen : List (Str × Nat) → Str → Nat → List (Str × Nat)
  | [], key, v => [(key, v)]
  | (k, w) :: rest, key, v => if k = key then (k, v) :: rest else (k, w) :: setSeen rest key v

/-- The duplicate-id pass at the end of `sectionize`: a repeated id gets an
incremented numeric suffix and a warning; the new suffixed id is *not*
recorded in `seen_ids`. -/
def dedupIds : List Section → List (Str × Nat) → List Section
  | [], _ => []
  | s :: rest, seen =>
      match lookupSeen seen s.id with
      | some n =>
          { s with id := s.id ++ '_' :: natToStr (n + 1),
                   warnings := s.warnings ++
                     ["Duplicate section ID detected, suffix added".data] } ::
            dedupIds rest (setSeen seen s.id (n + 1))
      | none => s :: dedupIds rest ((s.id, 0) :: seen)

/-- `sectionize(markdown, form_type)`. -/
def sectionize (markdown formType : Str) : List Section :=
  match findSections markdown formType with
  | [] =>
      [{ id := "unknown_01".data, title := "Unknown Section".data, content := markdown,
         char_start := 0, char_end := markdown.length,
         warnings := ["No section headings detected in document".data] }]
  | first :: restm =>
      let total := markdown.length
      let preamble := pyStrip (markdown.take first.char_pos)
      let pre : List Section :=
        if 0 < first.char_pos ∧ preamble ≠ [] ∧ 100 < preamble.length then
          [{ id := "unknown_00".data, title := "Preamble".data, content := preamble,
             char_start := 0, char_end := first.char_pos,
             warnings := ["Content before first detected section".data] }]
        else []
      dedupIds (pre ++ buildSections markdown formType total (first :: restm)) []

/-- The titled-section vocabulary entries that actually produce matches (the
pattern also covers `TABLE OF CONTENTS`, but `_should_ignore_title` always
suppresses that one). -/
def titledVocab : List Str :=
  ["SIGNATURES".data, "INDEX TO FINANCIAL STATEMENTS".data, "EXHIBITS INDEX".data,
   "FINANCIAL STATEMENTS".data, "NOTES TO FINANCIAL STATEMENTS".data]

/-- Character offset of the start of line `i` of `md` (lines split on newline;
each earlier line contributes its length plus one for the newline). -/
def lineOffset (md : Str) (i : Nat) : Nat :=
  (((md.splitOn '\n').take i).map (fun l => l.length + 1)).sum

example :
    (findSections ("Table of Contents\n\n| Item 1. | Financial Statements | 3 |\n| --- | --- | --- |\n| Item 2. | MD&A | 25 |\n\nPreamble text.\n2Part I. Financial InformationItem 1. Financial Statements\nSome content.\nItem 2. Management's Discussion and Analysis\nMore content.\nItem 3. Quantitative and Qualitative Disclosures about Market Risk\nItem 4. Controls and Procedures\nEnd of Part I.\n.Part II. Other InformationItem 1. Legal Proceedings\nItem 1A. Risk Factors\nItem 2. Unregistered Sales of Equity Securities and Use of Proceeds\nItem 5. Other Information\nItem 6. Exhibits\n").data "10-Q".data).map
      (fun m => (m.item, m.part)) =
    [("1".data, some "I".data), ("2".data, some "I".data), ("3".data, some "I".data),
     ("4".data, some "I".data), ("1".data, some "II".data), ("1A".data, some "II".data),
     ("2".data, some "II".data), ("5".data, some "II".data), ("6".data, some "II".data)] := by
  decide

example :
    (findSections "| 1. Item 1. Business | 3 |\n| --- | --- |\n| 2. Item 1A. Risk Factors | 5 |\n\n".data
      "10-K".data).map (fun m => m.item) = ["1".data, "1A".data] := by decide

example :
    (findSections "ITEM 1.01 Entry into a Material Definitive Agreement\nBody\n".data
      "8-K/A".data).map (fun m => m.item) = ["1.01".data] := by decide

example :
    (sectionize "Just some random content without any item headings.".data "10-K".data).map
      (fun s => (s.id, s.char_start, s.char_end)) =
    [("unknown_01".data, 0, 51)] := by decide

example :
    (sectionize "## ITEM 1. BUSINESS\n\nWe make things.\n\n## ITEM 2. PROPERTIES\n\nWe own buildings.\n".data
      "10-K".data).map (fun s => s.id) =
    ["10k_item1_business".data, "10k_item2_properties".data] := by decide

/-- **C4 (code bug).** The duplicate-id pass appends `_{n}` to a repeated id
but never records the *suffixed* id in `seen_ids`; a later section whose
generated id equals an earlier suffixed id therefore collides.  On the 10-K
document `"Item 1\na\nItem 1\nb\nItem 1. 1\nc"` the ids come out as
`10k_item1, 10k_item1_1, 10k_item1_1` — not pairwise distinct, contradicting
the pass's stated purpose (and the uniqueness its own test asserts). -/
theorem sectionize_duplicate_ids_bug :
    (sectionize "Item 1\na\nItem 1\nb\nItem 1. 1\nc".data "10-K".data).map Section.id =
      ["10k_item1".data, "10k_item1_1".data, "10k_item1_1".data] ∧
    ¬ ((sectionize "Item 1\na\nItem 1\nb\nItem 1. 1\nc".data "10-K".data).map
        Section.id).Nodup := by
  refine ⟨by decide, by decide⟩

/-- **C9 counterexample.** `TABLE OF CONTENTS` is in the titled-section
vocabulary (the pattern matches it), yet a document carrying it on a line by
itself yields no `SectionMatch` at all — `_should_ignore_title` suppresses it;
and for form types outside 10-K/10-Q/8-K (here `S-1`) the titled-section check
is skipped entirely, so even `SIGNATURES` on its own line yields nothing. -/
theorem findSections_titled_counterexample :
    titledMatch "TABLE OF CONTENTS".data = some "TABLE OF CONTENTS".data ∧
    findSections "TABLE OF CONTENTS\nbody text".data "10-K".data = [] ∧
    findSections "SIGNATURES\nbody text".data "S-1".data = [] := by
  refine ⟨by decide, by decide, by decide⟩

/-- **C10 counterexample.** When no heading is detected, the fallback section's
`content` is the raw document, *not* the stripped slice: on `" x"` the section
spans `[0, 2)` with content `" x"` while the stripped slice is `"x"`. -/
theorem sectionize_fallback_content_unstripped :
    sectionize " x".data "10-K".data =
      [{ id := "unknown_01".data, title := "Unknown Section".data, content := " x".data,
         char_start := 0, char_end := 2,
         warnings := ["No section headings detected in document".data] }] ∧
    pyStrip (strSlice " x".data 0 2) = "x".data ∧
    " x".data ≠ "x".data := by
  refine ⟨by decide, by decide, by decide⟩

/-! ### C1: the partition invariant of `sectionize` -/

theorem leMatchKey_pos_le {x y : SectionMatch} (h : leMatchKey x y = true) :
    x.char_pos ≤ y.char_pos := by
  simp only [leMatchKey, Bool.or_eq_true, Bool.and_eq_true, decide_eq_true_eq] at h
  rcases h with h | ⟨h, _⟩
  · omega
  · omega

theorem leMatchKey_neg_le {x y : SectionMatch} (h : leMatchKey x y = false) :
    y.char_pos ≤ x.char_pos := by
  simp only [leMatchKey, Bool.or_eq_false_iff, Bool.and_eq_false_iff] at h
  have h1 := h.1
  simp only [decide_eq_false_iff_not] at h1
  omega

theorem mem_insertMatch {x a : SectionMatch} :
    ∀ {l : List SectionMatch}, a ∈ insertMatch x l ↔ a = x ∨ a ∈ l := by
  intro l
  induction l with
  | nil => simp [insertMatch]
  | cons y ys ih =>
      simp only [insertMatch]
      split
      · simp [or_comm, List.mem_cons]
      · simp only [List.mem_cons, ih]
        tauto

/-- `a.char_pos ≤ b.char_pos`, the order the match sort establishes. -/
def posLe (a b : SectionMatch) : Prop := a.char_pos ≤ b.char_pos

theorem pairwise_insertMatch (x : SectionMatch) :
    ∀ {l : List SectionMatch}, List.Pairwise posLe l →
      List.Pairwise posLe (insertMatch x l) := by
  intro l
  induction l with
  | nil => intro _; simp [insertMatch, List.pairwise_cons]
  | cons y ys ih =>
      intro h
      obtain ⟨hy, hys⟩ := List.pairwise_cons.mp h
      simp only [insertMatch]
      split
      · rename_i hle
        refine List.pairwise_cons.mpr ⟨?_, h⟩
        intro z hz
        rcases List.mem_cons.mp hz with rfl | hz
        · exact leMatchKey_pos_le hle
        · exact le_trans (leMatchKey_pos_le hle) (hy z hz)
      · rename_i hgt
        refine List.pairwise_cons.mpr ⟨?_, ih hys⟩
        intro z hz
        rcases mem_insertMatch.mp hz with rfl | hz
        · exact leMatchKey_neg_le (Bool.not_eq_true _ ▸ (by simpa using hgt))
        · exact hy z hz

theorem pairwise_sortMatches (l : List SectionMatch) :
    List.Pairwise posLe (sortMatches l) := by
  induction l with
  | nil => simp [sortMatches]
  | cons x xs ih => exact pairwise_insertMatch x ih

theorem mem_sortMatches {a : SectionMatch} :
    ∀ {l : List SectionMatch}, a ∈ l → a ∈ sortMatches l := by
  intro l
  induction l with
  | nil => intro h; simp at h
  | cons x xs ih =>
      intro h
      rcases List.mem_cons.mp h with rfl | h
      · exact mem_insertMatch.mpr (Or.inl rfl)
      · exact mem_insertMatch.mpr (Or.inr (ih h))

theorem dedupByPos_spec :
    ∀ (l : List SectionMatch) (seen : List Nat), List.Pairwise posLe l →
      List.Chain' (fun a b => a.char_pos < b.char_pos) (dedupByPos l seen) ∧
      ∀ m ∈ dedupByPos l seen, m.char_pos ∉ seen ∧ m ∈ l := by
  intro l
  induction l with
  | nil => intro seen _; simp [dedupByPos]
  | cons m rest ih =>
      intro seen h
      obtain ⟨hm, hrest⟩ := List.pairwise_cons.mp h
      by_cases hmem : m.char_pos ∈ seen
      · rw [show dedupByPos (m :: rest) seen = dedupByPos rest seen by
          simp [dedupByPos, hmem]]
        obtain ⟨hc, hall⟩ := ih seen hrest
        exact ⟨hc, fun z hz => ⟨(hall z hz).1, List.mem_cons_of_mem _ (hall z hz).2⟩⟩
      · rw [show dedupByPos (m :: rest) seen = m :: dedupByPos rest (m.char_pos :: seen) by
          simp [dedupByPos, hmem]]
        obtain ⟨hc, hall⟩ := ih (m.char_pos :: seen) hrest
        refine ⟨List.chain'_cons'.mpr ⟨?_, hc⟩, ?_⟩
        · intro y hy
          have hymem := List.mem_of_mem_head? hy
          obtain ⟨hynot, hyin⟩ := hall y hymem
          have := hm y hyin
          simp only [List.mem_cons, not_or] at hynot
          have : m.char_pos ≤ y.char_pos := this
          omega
        · intro z hz
          rcases List.mem_cons.mp hz with rfl | hz
          · exact ⟨hmem, List.mem_cons_self _ _⟩
          · obtain ⟨hznot, hzin⟩ := hall z hz
            simp only [List.mem_cons, not_or] at hznot
            exact ⟨hznot.2, List.mem_cons_of_mem _ hzin⟩

theorem findSections_chain (md form : Str) :
    List.Chain' (fun a b => a.char_pos < b.char_pos) (findSections md form) := by
  unfold findSections
  exact (dedupByPos_spec _ [] (pairwise_sortMatches _)).1

theorem dedupByPos_exists {x : SectionMatch} :
    ∀ (l : List SectionMatch) (seen : List Nat), x ∈ l → x.char_pos ∉ seen →
      ∃ y ∈ dedupByPos l seen, y.char_pos = x.char_pos := by
  intro l
  induction l with
  | nil => intro seen h _; simp at h
  | cons m rest ih =>
      intro seen hx hnot
      by_cases hmem : m.char_pos ∈ seen
      · rw [show dedupByPos (m :: rest) seen = dedupByPos rest seen by
          simp [dedupByPos, hmem]]
        rcases List.mem_cons.mp hx with heq | hx
        · rw [heq] at hnot
          exact absurd hmem hnot
        · exact ih seen hx hnot
      · rw [show dedupByPos (m :: rest) seen = m :: dedupByPos rest (m.char_pos :: seen) by
          simp [dedupByPos, hmem]]
        rcases List.mem_cons.mp hx with heq | hx
        · exact ⟨m, List.mem_cons_self _ _, by rw [heq]⟩
        · by_cases hsame : x.char_pos = m.char_pos
          · exact ⟨m, List.mem_cons_self _ _, hsame.symm⟩
          · obtain ⟨y, hy1, hy2⟩ := ih (m.char_pos :: seen) hx (by
              simp only [List.mem_cons, not_or]
              exact ⟨hsame, hnot⟩)
            exact ⟨y, List.mem_cons_of_mem _ hy1, hy2⟩

theorem buildSections_spec (md form : Str) (total : Nat) :
    ∀ ms : List SectionMatch,
      List.Chain' (fun a b => a.char_pos < b.char_pos) ms →
      (buildSections md form total ms).length = ms.length ∧
      (buildSections md form total ms).head?.map Section.char_start =
        ms.head?.map SectionMatch.char_pos ∧
      (ms ≠ [] → (buildSections md form total ms).getLast?.map Section.char_end =
        some total) ∧
      List.Chain' (fun a b => a.char_end = b.char_start ∧ a.char_start < b.char_start)
        (buildSections md form total ms) ∧
      ∀ s ∈ buildSections md form total ms,
        s.content = pyStrip (strSlice md s.char_start s.char_end) := by
  intro ms
  induction ms with
  | nil => intro _; simp [buildSections]
  | cons m rest ih =>
      intro h
      cases rest with
      | nil =>
          refine ⟨by simp [buildSections], by simp [buildSections], ?_, ?_, ?_⟩
          · intro _
            simp [buildSections]
          · simp [buildSections]
          · intro s hs
            rcases List.mem_cons.mp hs with rfl | hs
            · rfl
            · simp [buildSections] at hs
      | cons m2 rest2 =>
          obtain ⟨ihlen, ihhead, ihlast, ihchain, ihall⟩ := ih h.tail
          have hstep : buildSections md form total (m :: m2 :: rest2) =
              { id := sectionId form m.part m.item m.title,
                title := if m.title.isEmpty then "Item ".data ++ m.item else m.title,
                content := pyStrip (strSlice md m.char_pos m2.char_pos),
                char_start := m.char_pos, char_end := m2.char_pos, warnings := [] } ::
                buildSections md form total (m2 :: rest2) := rfl
          have hne : buildSections md form total (m2 :: rest2) ≠ [] := by
            intro hnil
            rw [hnil] at ihlen
            simp at ihlen
          cases hrec : buildSections md form total (m2 :: rest2) with
          | nil => exact absurd hrec hne
          | cons r rs =>
              rw [hrec] at ihhead ihlast ihchain ihall
              have hrstart : r.char_start = m2.char_pos := by
                simp only [List.head?_cons, Option.map_some'] at ihhead
                exact Option.some.inj ihhead
              have hlt : m.char_pos < m2.char_pos := (List.chain'_cons.mp h).1
              refine ⟨?_, ?_, ?_, ?_, ?_⟩
              · rw [hstep, hrec]
                rw [hrec] at ihlen
                simp only [List.length_cons] at ihlen ⊢
                omega
              · rw [hstep]
                simp
              · intro _
                rw [hstep, hrec, List.getLast?_cons_cons]
                exact ihlast (by simp)
              · rw [hstep, hrec]
                refine List.chain'_cons.mpr ⟨⟨hrstart.symm, ?_⟩, ihchain⟩
                show m.char_pos < r.char_start
                omega
              · intro s hs
                rw [hstep, hrec] at hs
                rcases List.mem_cons.mp hs with rfl | hs
                · rfl
                · exact ihall s hs

/-- The fields of a `Section` the duplicate-id pass leaves unchanged. -/
def sectionProj (s : Section) : Nat × Nat × Str := (s.char_start, s.char_end, s.content)

theorem dedupIds_proj :
    ∀ (l : List Section) (seen : List (Str × Nat)),
      (dedupIds l seen).map sectionProj = l.map sectionProj := by
  intro l
  induction l with
  | nil => intro seen; rfl
  | cons s rest ih =>
      intro seen
      simp only [dedupIds]
      cases lookupSeen seen s.id with
      | some n =>
          simp only [List.map_cons, ih]
          rfl
      | none => simp only [List.map_cons, ih]

theorem head?_append_left {α : Type} {l l' : List α} (h : l ≠ []) :
    (l ++ l').head? = l.head? := by
  cases l with
  | nil => exact absurd rfl h
  | cons a as => rfl

theorem getLast?_append_right {α : Type} {l l' : List α} (h : l' ≠ []) :
    (l ++ l').getLast? = l'.getLast? := by
  rw [← List.head?_reverse, ← List.head?_reverse (l := l'), List.reverse_append]
  exact head?_append_left (by simpa using h)

theorem chain'_dedupIds {S : Nat × Nat × Str → Nat × Nat × Str → Prop}
    (l : List Section) (seen : List (Str × Nat))
    (h : List.Chain' (fun a b => S (sectionProj a) (sectionProj b)) l) :
    List.Chain' (fun a b => S (sectionProj a) (sectionProj b)) (dedupIds l seen) := by
  have h1 := (List.chain'_map sectionProj).mpr h
  rw [← dedupIds_proj l seen] at h1
  exact (List.chain'_map sectionProj).mp h1

theorem dedupIds_ne_nil (l : List Section) (seen : List (Str × Nat)) (h : l ≠ []) :
    dedupIds l seen ≠ [] := by
  intro hnil
  have hproj := dedupIds_proj l seen
  rw [hnil] at hproj
  cases l with
  | nil => exact h rfl
  | cons a as => simp at hproj

theorem dedupIds_getLast_char_end (l : List Section) (seen : List (Str × Nat)) :
    (dedupIds l seen).getLast?.map Section.char_end = l.getLast?.map Section.char_end := by
  have h := congrArg List.getLast? (dedupIds_proj l seen)
  rw [List.getLast?_map, List.getLast?_map] at h
  cases h1 : (dedupIds l seen).getLast? with
  | none =>
      rw [h1] at h
      cases h2 : l.getLast? with
      | none => rfl
      | some s => rw [h2] at h; simp at h
  | some s =>
      rw [h1] at h
      cases h2 : l.getLast? with
      | none => rw [h2] at h; simp at h
      | some t =>
          rw [h2] at h
          simp only [Option.map_some'] at h ⊢
          have := Option.some.inj h
          simp only [sectionProj, Prod.mk.injEq] at this
          rw [this.2.1]

theorem dedupIds_mem_proj {s : Section} (l : List Section) (seen : List (Str × Nat))
    (h : s ∈ dedupIds l seen) : ∃ s' ∈ l, sectionProj s' = sectionProj s := by
  have hp : sectionProj s ∈ (dedupIds l seen).map sectionProj := List.mem_map_of_mem _ h
  rw [dedupIds_proj] at hp
  obtain ⟨s', hs', he⟩ := List.mem_map.mp hp
  exact ⟨s', hs', he⟩

theorem dedupIds_partition (L : List Section) (n : Nat) (hne : L ≠ [])
    (hchain : List.Chain' (fun a b => a.char_end = b.char_start ∧ a.char_start < b.char_start) L)
    (hlast : L.getLast?.map Section.char_end = some n) :
    dedupIds L [] ≠ [] ∧
    List.Chain' (fun a b => a.char_start < b.char_start) (dedupIds L []) ∧
    List.Chain' (fun a b => a.char_end = b.char_start) (dedupIds L []) ∧
    (dedupIds L []).getLast?.map Section.char_end = some n := by
  refine ⟨dedupIds_ne_nil L [] hne, ?_, ?_, ?_⟩
  · have h1 : List.Chain' (fun a b : Section => a.char_start < b.char_start) L :=
      hchain.imp fun _ _ h => h.2
    exact chain'_dedupIds (S := fun p q => p.1 < q.1) L [] h1
  · have h1 : List.Chain' (fun a b : Section => a.char_end = b.char_start) L :=
      hchain.imp fun _ _ h => h.1
    exact chain'_dedupIds (S := fun p q => p.2.1 = q.1) L [] h1
  · rw [dedupIds_getLast_char_end]
    exact hlast

/-- **C1.** For every markdown string and form type, the Section list returned
by `sectionize` is ordered by `char_start`, consecutive sections satisfy
`char_end[i] = char_start[i+1]`, every `char_start` is `≥ 0`, and the final
section's `char_end` equals the document length. -/
theorem sectionize_partition (md form : Str) :
    sectionize md form ≠ [] ∧
    (∀ s ∈ sectionize md form, 0 ≤ s.char_start) ∧
    List.Chain' (fun a b => a.char_start < b.char_start) (sectionize md form) ∧
    List.Chain' (fun a b => a.char_end = b.char_start) (sectionize md form) ∧
    (sectionize md form).getLast?.map Section.char_end = some md.length := by
  cases hfs : findSections md form with
  | nil =>
      simp only [sectionize, hfs]
      exact ⟨by simp, by simp, by simp, by simp, by simp⟩
  | cons first restm =>
      have hchain := findSections_chain md form
      rw [hfs] at hchain
      obtain ⟨blen, bhead, blast, bchain, _⟩ :=
        buildSections_spec md form md.length (first :: restm) hchain
      have hBne : buildSections md form md.length (first :: restm) ≠ [] := by
        intro h
        rw [h] at blen
        simp at blen
      have hblast := blast (by simp)
      simp only [sectionize, hfs]
      by_cases hp : 0 < first.char_pos ∧ pyStrip (md.take first.char_pos) ≠ [] ∧
          100 < (pyStrip (md.take first.char_pos)).length
      · rw [if_pos hp]
        cases hBeq : buildSections md form md.length (first :: restm) with
        | nil => exact absurd hBeq hBne
        | cons r rs =>
            rw [hBeq] at bhead bchain hblast
            have hrstart : r.char_start = first.char_pos := by
              simp only [List.head?_cons, Option.map_some'] at bhead
              exact Option.some.inj bhead
            have hLchain : List.Chain'
                (fun a b => a.char_end = b.char_start ∧ a.char_start < b.char_start)
                ({ id := "unknown_00".data, title := "Preamble".data,
                   content := pyStrip (md.take first.char_pos), char_start := 0,
                   char_end := first.char_pos, warnings :=
                     ["Content before first detected section".data] } :: r :: rs) := by
              refine List.chain'_cons.mpr ⟨⟨?_, ?_⟩, bchain⟩
              · show first.char_pos = r.char_start
                omega
              · show 0 < r.char_start
                omega
            have hLlast : (({ id := "unknown_00".data, title := "Preamble".data,
                                content := pyStrip (md.take first.char_pos), char_start := 0,
                                char_end := first.char_pos, warnings :=
                                  ["Content before first detected section".data] } :: r ::
                       rs) : List Section).getLast?.map Section.char_end = some md.length := by
              rw [List.getLast?_cons_cons]
              exact hblast
            obtain ⟨h1, h2, h3, h4⟩ := dedupIds_partition _ md.length (by simp) hLchain hLlast
            exact ⟨h1, fun s _ => Nat.zero_le _, h2, h3, h4⟩
      · rw [if_neg hp]
        simp only [List.nil_append]
        obtain ⟨h1, h2, h3, h4⟩ :=
          dedupIds_partition _ md.length hBne bchain hblast
        exact ⟨h1, fun s _ => Nat.zero_le _, h2, h3, h4⟩

/-! ### C10: section content is the stripped slice; chunk offsets live in it -/

theorem chunkSection_bounds (sid content : Str) (mn mx : Int) :
    ∀ c ∈ chunkSection sid content mn mx,
      c.char_start < c.char_end ∧ c.char_end ≤ content.length := by
  by_cases hc : content = []
  · simp [chunkSection, hc]
  · by_cases htot : countTokens content ≤ clampTokens mx
    · have hsingle : chunkSection sid content mn mx =
          [{ chunk_id := generateChunkId sid 0 content, section_id := sid, chunk_index := 0,
             text := content, char_start := 0, char_end := content.length,
             tokens := countTokens content }] := by
        simp [chunkSection, hc, htot]
      have hpos : 0 < content.length := List.length_pos.mpr hc
      rw [hsingle]
      intro c hcm
      rcases List.mem_cons.mp hcm with rfl | hcm
      · exact ⟨hpos, le_refl _⟩
      · simp at hcm
    · have hrw : chunkSection sid content mn mx =
          chunkGo sid content
            (sortedDedup (findParagraphBoundaries content ++ findSentenceBoundaries content ++
              [content.length]))
            (if clampTokens mx < clampTokens mn then clampTokens mx else clampTokens mn)
            (clampTokens mx) content.length 0 0 := by
        simp [chunkSection, hc, htot]
      have hbounds : ∀ b ∈ sortedDedup (findParagraphBoundaries content ++
          findSentenceBoundaries content ++ [content.length]), b ≤ content.length := by
        intro b hbm
        have := mem_sortedDedup hbm
        rcases List.mem_append.mp this with h | h
        · rcases List.mem_append.mp h with h | h
          · have := paraGo_le content 0 0 b h
            omega
          · have := sentGo_le content 0 0 b h
            omega
        · simp at h
          omega
      have hpos : 0 < content.length := List.length_pos.mpr hc
      obtain ⟨_, _, _, _, hall⟩ :=
        chunkGo_spec sid content _ _ (clampTokens mx) hbounds (clampTokens_pos mx)
          content.length 0 0 hpos (by omega)
      rw [hrw]
      exact fun c hcm => ⟨(hall c hcm).1, (hall c hcm).2.1⟩

/-- **C10 (amended).** Whenever at least one section heading is detected, every
section returned by `sectionize` has `content = strip(markdown[char_start:char_end])`
(the no-heading fallback section keeps the raw document instead); and the chunk
`[char_start, char_end)` offsets produced by `chunk_section` on a section are
positions within the stripped section content (bounded by its length), not
positions within the original document. -/
theorem sectionize_content_slice (md form : Str) :
    (findSections md form ≠ [] →
      ∀ s ∈ sectionize md form,
        s.content = pyStrip (strSlice md s.char_start s.char_end)) ∧
    (∀ s ∈ sectionize md form, ∀ mn mx : Int,
      ∀ c ∈ chunkSection s.id s.content mn mx,
        c.char_start < c.char_end ∧ c.char_end ≤ s.content.length) := by
  constructor
  · intro hne s hs
    cases hfs : findSections md form with
    | nil => exact absurd hfs hne
    | cons first restm =>
        have hchain := findSections_chain md form
        rw [hfs] at hchain
        obtain ⟨_, _, _, _, ball⟩ :=
          buildSections_spec md form md.length (first :: restm) hchain
        simp only [sectionize, hfs] at hs
        obtain ⟨t, ht, hproj⟩ := dedupIds_mem_proj _ _ hs
        simp only [sectionProj, Prod.mk.injEq] at hproj
        obtain ⟨hstart, hend, hcontent⟩ := hproj
        rw [← hstart, ← hend, ← hcontent]
        rcases List.mem_append.mp ht with hpre | hb
        · by_cases hp : 0 < first.char_pos ∧ pyStrip (md.take first.char_pos) ≠ [] ∧
              100 < (pyStrip (md.take first.char_pos)).length
          · rw [if_pos hp] at hpre
            rcases List.mem_cons.mp hpre with rfl | hpre
            · rfl
            · simp at hpre
          · rw [if_neg hp] at hpre
            simp at hpre
        · exact ball t hb
  · intro s _ mn mx c hcm
    exact chunkSection_bounds s.id s.content mn mx c hcm

theorem sectionize_content_slice_witness :
    "Item 1. Business\nSome body text here.".data =
      pyStrip (strSlice "Item 1. Business\nSome body text here.".data 0 37) ∧
    ((0 : Nat) < 37 ∧ 37 ≤ "Item 1. Business\nSome body text here.".data.length) :=
  ⟨(sectionize_content_slice "Item 1. Business\nSome body text here.".data "10-K".data).1
      (by decide)
      { id := "10k_item1_business".data, title := "Business".data,
        content := "Item 1. Business\nSome body text here.".data, char_start := 0,
        char_end := 37, warnings := [] } (by decide),
   (sectionize_content_slice "Item 1. Business\nSome body text here.".data "10-K".data).2
      { id := "10k_item1_business".data, title := "Business".data,
        content := "Item 1. Business\nSome body text here.".data, char_start := 0,
        char_end := 37, warnings := [] } (by decide) 1 5000
      { chunk_id := generateChunkId "10k_item1_business".data 0
          "Item 1. Business\nSome body text here.".data,
        section_id := "10k_item1_business".data, chunk_index := 0,
        text := "Item 1. Business\nSome body text here.".data, char_start := 0,
        char_end := 37,
        tokens := countTokens "Item 1. Business\nSome body text here.".data } (by decide)⟩

/-! ### C9: the titled-section vocabulary -/

theorem processLine_titled (form formUpper : Str)
    (hform : formUpper = "10-K".data ∨ formUpper = "10-Q".data ∨ formUpper = "8-K".data)
    (V : Str) (hV : V ∈ titledVocab) (lineNum offset : Nat) (st : ScanState) :
    ∃ m ∈ (processLine form formUpper lineNum offset V st).2, m.char_pos = offset := by
  obtain ⟨cp, ta, tt, seen⟩ := st
  simp only [titledVocab, List.mem_cons, List.not_mem_nil, or_false] at hV
  rcases hform with hf | hf | hf <;> subst hf <;>
    rcases hV with rfl | rfl | rfl | rfl | rfl <;> cases tt <;>
      exact ⟨_, List.Mem.head _, rfl⟩

theorem scanLines_cons (form formUpper line : Str) (rest : List Str)
    (lineNum offset : Nat) (st : ScanState) :
    scanLines form formUpper (line :: rest) lineNum offset st =
      (processLine form formUpper lineNum offset line st).2 ++
        scanLines form formUpper rest (lineNum + 1) (offset + line.length + 1)
          (processLine form formUpper lineNum offset line st).1 := by
  cases h : processLine form formUpper lineNum offset line st with
  | mk st2 ms => simp [scanLines, h]

theorem scanLines_titled (form formUpper : Str)
    (hform : formUpper = "10-K".data ∨ formUpper = "10-Q".data ∨ formUpper = "8-K".data)
    (V : Str) (hV : V ∈ titledVocab) :
    ∀ (lines : List Str) (i : Nat), lines.get? i = some V →
      ∀ (lineNum offset : Nat) (st : ScanState),
        ∃ m ∈ scanLines form formUpper lines lineNum offset st,
          m.char_pos = offset + ((lines.take i).map (fun l => l.length + 1)).sum := by
  intro lines
  induction lines with
  | nil => intro i hi; simp at hi
  | cons line rest ih =>
      intro i hi lineNum offset st
      rw [scanLines_cons]
      cases i with
      | zero =>
          simp only [List.get?] at hi
          have hlv : line = V := Option.some.inj hi
          subst hlv
          obtain ⟨m, hm, hpos⟩ := processLine_titled form formUpper hform line hV
            lineNum offset st
          exact ⟨m, List.mem_append_left _ hm, by simp [hpos]⟩
      | succ j =>
          simp only [List.get?] at hi
          obtain ⟨m, hm, hpos⟩ := ih j hi (lineNum + 1) (offset + line.length + 1)
            (processLine form formUpper lineNum offset line st).1
          refine ⟨m, List.mem_append_right _ hm, ?_⟩
          rw [hpos]
          simp only [List.take_succ_cons, List.map_cons, List.sum_cons]
          omega

/-- **C9 (amended).** For every form whose normalized type is 10-K, 10-Q or
8-K, and every markdown document with a line that is exactly one of the
*emitted* titled-section vocabulary entries (SIGNATURES, INDEX TO FINANCIAL
STATEMENTS, EXHIBITS INDEX, FINANCIAL STATEMENTS, NOTES TO FINANCIAL
STATEMENTS), `find_sections` returns a SectionMatch positioned at that line.
`TABLE OF CONTENTS`, although part of the pattern, is always suppressed by
`_should_ignore_title`, and for other form types the titled-section check
never runs (see `findSections_titled_counterexample`). -/
theorem findSections_titled_vocab (md form V : Str) (i : Nat)
    (hV : V ∈ titledVocab)
    (hform : (normalizeFormType form).map Char.toUpper = "10-K".data ∨
             (normalizeFormType form).map Char.toUpper = "10-Q".data ∨
             (normalizeFormType form).map Char.toUpper = "8-K".data)
    (hline : (md.splitOn '\n').get? i = some V) :
    ∃ m ∈ findSections md form, m.char_pos = lineOffset md i := by
  obtain ⟨m, hm, hpos⟩ := scanLines_titled form ((normalizeFormType form).map Char.toUpper)
    hform V hV (md.splitOn '\n') i hline 0 0 ⟨none, false, false, []⟩
  obtain ⟨y, hy, hyp⟩ := dedupByPos_exists _ [] (mem_sortMatches hm) (by simp)
  refine ⟨y, hy, ?_⟩
  rw [hyp, hpos, lineOffset]
  exact Nat.zero_add _

theorem findSections_titled_vocab_witness :
    ∃ m ∈ findSections "SIGNATURES\nbody text".data "10-K".data,
      m.char_pos = lineOffset "SIGNATURES\nbody text".data 0 :=
  findSections_titled_vocab "SIGNATURES\nbody text".data "10-K".data "SIGNATURES".data 0
    (by decide) (Or.inl (by decide)) (by decide)
